import Mathlib

/-!
Verification of the BearMods scan/hash/diff/backup/apply core (src/app.py).

Shallow embedding conventions:
* A directory tree on disk is modeled by `Node`: a file carries its byte
  content (as a `String`); a directory carries its named children in
  directory-listing order.  Relative paths ("relPath", slash-normalized in
  the source) are modeled by their component lists (`List String`); since
  well-formed file names are nonempty and contain no slash, the component
  list determines the joined string and vice versa.
* Python dicts keyed by relPath are modeled by association lists with
  pairwise-distinct keys.
* The xxhash digest is an uninterpreted parameter `dg : String → Nat`;
  `intdigest()` of xxh3_64 is a 64-bit value, modeled by reducing mod 2^64.
* Progress callbacks are modeled by the list of emitted
  (percent, message, phase-tag) events, with percent as a rational number.
* Fallible reads are modeled by `Except`: `.ok content` for a successful
  read, `.error msg` for a raised exception with message `msg`.
-/

namespace BearMods

/-- A filesystem node: a file with its byte content, or a directory with its
named children (in listing order), mirroring the trees walked by `os.walk`. -/
inductive Node where
  | file (content : String)
  | dir (children : List (String × Node))

/-- `True` on directories, `False` on files (`os.path.isdir` on an existing path). -/
def Node.isDir : Node → Bool
  | .file _ => false
  | .dir _ => true

/-- Well-formedness of a directory tree: at every level the child names are
pairwise distinct (a real directory cannot hold two children with the same
name), nonempty and slash-free (so that component lists faithfully model the
slash-joined relative-path strings of the source). -/
def Node.wf : Node → Bool
  | .file _ => true
  | .dir cs =>
    decide ((cs.map Prod.fst).Nodup)
      && cs.all (fun x => x.1 != "" && !(x.1.data.contains '/'))
      && cs.attach.all (fun x => x.1.2.wf)
termination_by n => sizeOf n
decreasing_by
  have h1 := List.sizeOf_lt_of_mem x.2
  have h2 : sizeOf x.1.2 < sizeOf x.1 := by
    obtain ⟨⟨a, b⟩, hm⟩ := x
    simp only [Prod.mk.sizeOf_spec]
    omega
  simp only [Node.dir.sizeOf_spec]
  omega

/-- Resolve a relative path (component list) inside a tree; `none` when the
path does not exist (`Path.exists()` is `isSome`). -/
def nodeAt : Node → List String → Option Node
  | n, [] => some n
  | .dir cs, d :: rest =>
    match cs.find? (fun x => x.1 == d) with
    | some x => nodeAt x.2 rest
    | none => none
  | .file _, _ :: _ => none

/- ---------------------------------------------------------------------
ContentHasher: `hash_file` (src/app.py lines 91-102).

    def hash_file(path):
        try:
            h = xxhash.xxh3_64()
            with open(path, "rb") as f:
                while True:
                    chunk = f.read(8192)
                    if not chunk: break
                    h.update(chunk)
            return f"{h.intdigest():016x}"
        except Exception as e:
            return f"ERR({e})"
--------------------------------------------------------------------- -/

/-- Lowercase hexadecimal digit, as produced by Python's `x` format
(48 = code of the digit 0, 87 + 10 = code of the letter a). -/
def hexDigitChar (n : Nat) : Char :=
  if n < 10 then Char.ofNat (48 + n) else Char.ofNat (87 + n)

/-- Unpadded lowercase hexadecimal representation of a natural number
(most significant digit first), as produced by Python's `x` format. -/
def hexRep (n : Nat) : List Char :=
  if _h : n < 16 then [hexDigitChar n]
  else hexRep (n / 16) ++ [hexDigitChar (n % 16)]
decreasing_by exact Nat.div_lt_self (by omega) (by omega)

/-- Python's `016x` format: the hexadecimal representation zero-padded on the
left to at least 16 digits. -/
def format016x (n : Nat) : String :=
  String.mk (List.replicate (16 - (hexRep n).length) '0' ++ hexRep n)

/-- Split a byte sequence into the successive chunks returned by
`f.read(8192)`: 8192 bytes each, the final chunk possibly shorter. -/
def chunks8192 (l : List Char) : List (List Char) :=
  if _h : l = [] then []
  else l.take 8192 :: chunks8192 (l.drop 8192)
termination_by l.length
decreasing_by
  simp only [List.length_drop]
  have : l.length ≠ 0 := by simpa [List.length_eq_zero] using _h
  omega

/-- `hash_file`, over the outcome of reading the file.  `dg` is the xxh3_64
digest of a byte string (`h.intdigest()` after feeding those bytes); it is a
64-bit value, modeled by reducing an arbitrary `Nat`-valued digest mod 2^64.
The incremental accumulator is modeled by folding the 8 KiB chunks together
and digesting the accumulated bytes at the end.  A raised exception with
message `e` yields the sentinel string `ERR(e)` instead of propagating. -/
def hash_file (dg : String → Nat) : Except String String → String
  | .error e => "ERR(" ++ e ++ ")"
  | .ok content =>
    let streamed := (chunks8192 content.data).foldl (fun acc ch => acc ++ ch) []
    format016x (dg (String.mk streamed) % 2 ^ 64)

/- ---------------------------------------------------------------------
DirectoryScanner: `scan_dir_with_hashes` (src/app.py lines 104-131).
`os.walk` visits the root first and then each subdirectory top-down, never
pruning: even when a base's own entries are skipped or a directory entry is
filtered out, the walk still descends into it.
--------------------------------------------------------------------- -/

/-- Python's `s.lower()`, character by character (the names involved are
ASCII, on which the two agree). -/
def lowerData (s : String) : List Char :=
  s.data.map Char.toLower

/-- Python's `s.endswith(sfx)`, on the character sequences. -/
def endsWithData (sfx : String) (s : List Char) : Bool :=
  sfx.data.isSuffixOf s

/-- The `skip_dir` test of a walk base: `rel_base == ".git" or
rel_base.startswith(".git")`.  `rel_base` is `"."` for the root (never
skipped) and otherwise the slash-joined components, whose string starts with
".git" exactly when its first component does (names contain no slash). -/
def skipBase : List String → Bool
  | [] => false
  | b :: _ => ".git".data.isPrefixOf b.data

/-- Directory-entry filter: `d in [".git", "__pycache__"] or d.lower().endswith(".tmp")`. -/
def badDirName (d : String) : Bool :=
  d == ".git" || d == "__pycache__" || endsWithData ".tmp" (lowerData d)

/-- File-entry filter: `f in [".gitignore"] or f.lower().endswith(".tmp") or f.lower().endswith(".log")`. -/
def badFileName (f : String) : Bool :=
  f == ".gitignore" || endsWithData ".tmp" (lowerData f) || endsWithData ".log" (lowerData f)

/-- A raw walk entry: a directory, or a file with its content (hashes are
applied afterwards, and the zip backup stores the contents themselves). -/
inductive WEntry where
  | dirE : WEntry
  | fileE (content : String) : WEntry
deriving DecidableEq

/-- The walk entry corresponding to a node. -/
def toW : Node → WEntry
  | .file c => .fileE c
  | .dir _ => .dirE

/-- Distinctness of child names at every level of a tree: the part of
`Node.wf` that the dict semantics of the scan maps relies on. -/
def Node.nodupKeys : Node → Bool
  | .file _ => true
  | .dir cs => decide ((cs.map Prod.fst).Nodup) && cs.attach.all (fun x => x.1.2.nodupKeys)
termination_by n => sizeOf n
decreasing_by
  have h1 := List.sizeOf_lt_of_mem x.2
  have h2 : sizeOf x.1.2 < sizeOf x.1 := by
    obtain ⟨⟨a, b⟩, hm⟩ := x
    simp only [Prod.mk.sizeOf_spec]
    omega
  simp only [Node.dir.sizeOf_spec]
  omega

/-- The entries produced by the `os.walk` loop of `scan_dir_with_hashes`,
starting from base `relBase`: unless the base is skipped, one entry per
(unfiltered) child directory, then one per (unfiltered) child file; then the
entries of each subdirectory's walk, in order.  With `fg = false` no entry is
filtered. -/
def scanEntries (fg : Bool) (relBase : List String) : Node → List (List String × WEntry)
  | .file _ => []
  | .dir cs =>
    (if fg && skipBase relBase then []
     else
       cs.filterMap (fun x =>
         match x.2 with
         | .dir _ => if fg && badDirName x.1 then none else some (relBase ++ [x.1], WEntry.dirE)
         | .file _ => none)
       ++ cs.filterMap (fun x =>
         match x.2 with
         | .file c => if fg && badFileName x.1 then none else some (relBase ++ [x.1], WEntry.fileE c)
         | .dir _ => none))
    ++ cs.attach.flatMap (fun x =>
         match x.1.2 with
         | .dir _ => scanEntries fg (relBase ++ [x.1.1]) x.1.2
         | .file _ => [])
termination_by n => sizeOf n
decreasing_by
  have h1 := List.sizeOf_lt_of_mem x.2
  have h2 : sizeOf x.1.2 < sizeOf x.1 := by
    obtain ⟨⟨a, b⟩, hm⟩ := x
    simp only [Prod.mk.sizeOf_spec]
    omega
  simp only [Node.dir.sizeOf_spec]
  omega

/-- The per-path metadata dict built by `scan_dir_with_hashes`:
`{"is_dir": ..., "hash": ...}` — hash `""` for directories, `hash_file` of the
content for files (`hashF` is the content hasher on a successfully read file). -/
structure FMeta where
  is_dir : Bool
  hash : String
deriving DecidableEq

/-- Metadata of a walk entry. -/
def metaOfEntry (hashF : String → String) : WEntry → FMeta
  | .dirE => { is_dir := true, hash := "" }
  | .fileE c => { is_dir := false, hash := hashF c }

/-- `scan_dir_with_hashes(root, filter_garbage)`: the relPath → meta map of
the tree, as an association list in walk order. -/
def scan_dir_with_hashes (hashF : String → String) (root : Node) (filter_garbage : Bool) :
    List (List String × FMeta) :=
  (scanEntries filter_garbage [] root).map (fun x => (x.1, metaOfEntry hashF x.2))

/- ---------------------------------------------------------------------
DiffEngine: the classification loops of `UpdaterApp._scan_all`
(src/app.py lines 753-766).
--------------------------------------------------------------------- -/

/-- `FileMeta` (src/app.py lines 133-136): a relPath together with its
source-side isDir flag. -/
structure FileMeta where
  rel_path : List String
  is_dir : Bool
deriving DecidableEq

/-- Python dict lookup `m[k]` on a relPath → meta map (first matching key;
scan maps have pairwise-distinct keys).  `k in m` is `(lookupA k m).isSome`. -/
def lookupA (k : List String) : List (List String × FMeta) → Option FMeta
  | [] => none
  | x :: rest => if x.1 = k then some x.2 else lookupA k rest

/-- The four diff buckets built by `_scan_all`. -/
structure DiffResult where
  deletes : List FileMeta
  adds : List FileMeta
  replaces : List FileMeta
  ignores : List FileMeta

/-- The three classification loops of `_scan_all`: keys of the mod map absent
from the repo map are deletions (mod flag); keys of the repo map absent from
the mod map are additions (repo flag); for keys in both, a repo-side file
whose hash differs from the mod entry's hash is a replacement, otherwise the
key is an ignore when the isDir flags agree (and is dropped when they do
not).  Each loop appends to its bucket in iteration order, which the
`filterMap`s reproduce. -/
def scanDiff (mod_map repo_map : List (List String × FMeta)) : DiffResult where
  deletes := mod_map.filterMap (fun x =>
    if lookupA x.1 repo_map = none then some ⟨x.1, x.2.is_dir⟩ else none)
  adds := repo_map.filterMap (fun x =>
    if lookupA x.1 mod_map = none then some ⟨x.1, x.2.is_dir⟩ else none)
  replaces := repo_map.filterMap (fun x =>
    match lookupA x.1 mod_map with
    | none => none
    | some mm => if x.2.is_dir = false ∧ x.2.hash ≠ mm.hash then some ⟨x.1, false⟩ else none)
  ignores := repo_map.filterMap (fun x =>
    match lookupA x.1 mod_map with
    | none => none
    | some mm =>
      if x.2.is_dir = false ∧ x.2.hash ≠ mm.hash then none
      else if x.2.is_dir = mm.is_dir then some ⟨x.1, x.2.is_dir⟩ else none)

/- ---------------------------------------------------------------------
BackupArchiver: `copy_dir_all` (lines 37-61) and `create_zip_backup`
(lines 63-89).  `copy_dir_all` recreates every directory of the source tree
and copies every file (`shutil.copy2` preserves names and contents), so the
ephemeral copy that gets zipped is the same tree; `create_zip_backup` then
writes one zip entry per *file* of the walk — directories are never written.
--------------------------------------------------------------------- -/

/-- The zip entries written by `create_zip_backup`'s walk: the relPath and
content of every file of the tree, in walk order (no directory entries). -/
def zipList (t : Node) : List (List String × String) :=
  (scanEntries false [] t).filterMap (fun x =>
    match x.2 with
    | .fileE c => some (x.1, c)
    | .dirE => none)

/-- `total_files`: the file count over `os.walk` (the percent denominator of
both backup phases). -/
def totalFiles (t : Node) : Nat := (zipList t).length

/-- Replace the child named `d` (or append it when absent), keeping the other
children in place. -/
def setChild : List (String × Node) → String → Node → List (String × Node)
  | [], d, n => [(d, n)]
  | x :: rest, d, n => if x.1 = d then (d, n) :: rest else x :: setChild rest d n

/-- `os.makedirs`: create the directory at the given path, creating missing
ancestors.  Descending into an existing *file* cannot happen in the uses
modeled here (such an attempt raises in the source and is covered by the
failure oracles); the model leaves the node unchanged in that case. -/
def mkdirs : Node → List String → Node
  | n, [] => n
  | .dir cs, d :: rest =>
    let child := match cs.find? (fun x => x.1 == d) with
      | some x => x.2
      | none => Node.dir []
    .dir (setChild cs d (mkdirs child rest))
  | .file c, _ :: _ => .file c

/-- Write a file at a path, creating missing ancestor directories and
overwriting any existing destination: the effect of `zip_ref.extract` for a
zip file entry, and of `os.makedirs(dst.parent)` + `shutil.copy2(src, dst)`
in apply Phase 2. -/
def insertFile : Node → List String → String → Node
  | n, [], _ => n
  | .dir cs, [d], c => .dir (setChild cs d (.file c))
  | .dir cs, d :: rest, c =>
    let child := match cs.find? (fun x => x.1 == d) with
      | some x => x.2
      | none => Node.dir []
    .dir (setChild cs d (insertFile child rest c))
  | .file c0, _ :: _, _ => .file c0

/-- Full extraction of a zip archive into a fresh directory: each stored file
is written in order, parents created as needed. -/
def extract_zip (entries : List (List String × String)) : Node :=
  entries.foldl (fun t x => insertFile t x.1 x.2) (.dir [])

/- ---------------------------------------------------------------------
ApplyEngine: `UpdaterApp._do_apply` (src/app.py lines 797-874).
Filesystem failures are modeled by oracles: `delFail m` says whether some OS
call raises while removing deletion entry `m` (the `try` swallows it;
whatever was already removed stays removed — no later behavior modeled here
depends on the partially-removed subtree, so the model keeps the tree
unchanged on failure); `copyFail m` is the raised message, if any, among the
OS calls processing Phase-2 entry `m`.
--------------------------------------------------------------------- -/

/-- Remove the entry at a path together with everything beneath it (the
effect of the bottom-up `os.walk` removal loop, or of `os.remove` on a file). -/
def removeAt : Node → List String → Node
  | n, [] => n
  | .dir cs, [d] => .dir (cs.filter (fun x => x.1 != d))
  | .dir cs, d :: rest => .dir (cs.map (fun x => if x.1 = d then (x.1, removeAt x.2 rest) else x))
  | .file c, _ :: _ => .file c

/-- One Phase-1 iteration (lines 825-849): skip a missing target; otherwise
remove it when its type matches the recorded flag (`meta.is_dir` against
`os.path.isdir` / `os.path.isfile`); any exception in the removal is caught
and ignored. -/
def phase1Step (mods : Node) (m : FileMeta) (fail : Bool) : Node :=
  match nodeAt mods m.rel_path with
  | none => mods
  | some target =>
    if fail then mods
    else if m.is_dir then
      if target.isDir then removeAt mods m.rel_path else mods
    else
      if target.isDir then mods else removeAt mods m.rel_path

/-- Phase 1: best-effort deletions. -/
def phase1 (mods : Node) (deletes : List FileMeta) (delFail : FileMeta → Bool) : Node :=
  deletes.foldl (fun t m => phase1Step t m (delFail m)) mods

/-- The rendered relPath (slash-joined, as in the progress messages and
error strings). -/
def pathStr (p : List String) : String := String.intercalate "/" p

/-- Rendered source path `repo_path / meta.rel_path` of a Phase-2 entry. -/
def srcOf (repo_dir : String) (m : FileMeta) : String :=
  repo_dir ++ "/" ++ pathStr m.rel_path

/-- Rendered destination path `Path(mods_path) / meta.rel_path`. -/
def dstOf (mods_path : String) (m : FileMeta) : String :=
  mods_path ++ "/" ++ pathStr m.rel_path

/-- The fatal Phase-2 message: `f"Copy failed for {src} to {dst}: {ex}"`. -/
def copyFailMsg (repo_dir mods_path : String) (m : FileMeta) (ex : String) : String :=
  "Copy failed for " ++ srcOf repo_dir m ++ " to " ++ dstOf mods_path m ++ ": " ++ ex

/-- One Phase-2 iteration (lines 851-865): a directory entry is created when
missing (nothing to fail when it already exists — no OS call is made); a file
entry whose source is absent is skipped silently; otherwise the staging file
is copied over the destination (parents created, destination overwritten).
`shutil.copy2` of a directory source always raises.  Any exception becomes
the fatal `Copy failed` error naming source and destination. -/
def phase2Step (repo : Node) (repo_dir mods_path : String) (mods : Node) (m : FileMeta)
    (osFail : Option String) : Except String Node :=
  if m.is_dir then
    if (nodeAt mods m.rel_path).isSome then .ok mods
    else
      match osFail with
      | some ex => .error (copyFailMsg repo_dir mods_path m ex)
      | none => .ok (mkdirs mods m.rel_path)
  else
    match nodeAt repo m.rel_path with
    | none => .ok mods
    | some (.dir _) => .error (copyFailMsg repo_dir mods_path m (osFail.getD "src is a directory"))
    | some (.file c) =>
      match osFail with
      | some ex => .error (copyFailMsg repo_dir mods_path m ex)
      | none => .ok (insertFile mods m.rel_path c)

/-- Phase 2 over `adds + replaces`: the first failure aborts the whole loop. -/
def phase2 (repo : Node) (repo_dir mods_path : String) (copyFail : FileMeta → Option String) :
    Node → List FileMeta → Except String Node
  | mods, [] => .ok mods
  | mods, m :: rest =>
    match phase2Step repo repo_dir mods_path mods m (copyFail m) with
    | .error e => .error e
    | .ok mods2 => phase2 repo repo_dir mods_path copyFail mods2 rest

/-- `_do_apply`, result side: the optional backup (whose own failure, modeled
by `backupFail`, is fatal), then best-effort deletions, then fatal
additions/replacements; every raised message is wrapped as
`Failed applying changes: ...`; on success the produced backup zip path (or
`""` without backup) and the final live tree are returned. -/
def do_apply (mods repo : Node) (mods_path repo_dir : String)
    (adds deletes replaces : List FileMeta) (backup_before_apply : Bool)
    (backupFail : Option String) (backupZip : String)
    (delFail : FileMeta → Bool) (copyFail : FileMeta → Option String) :
    Except String (String × Node) :=
  if backup_before_apply ∧ backupFail.isSome then
    .error ("Failed applying changes: " ++ backupFail.getD "")
  else
    match phase2 repo repo_dir mods_path copyFail (phase1 mods deletes delFail)
        (adds ++ replaces) with
    | .error e => .error ("Failed applying changes: " ++ e)
    | .ok final => .ok (if backup_before_apply then backupZip else "", final)

/- ---------------------------------------------------------------------
Progress traces.  A progress event is (percent, message, phase tag); percent
is modeled as an exact rational (the source uses Python floats; only order
comparisons of these values matter to the claims, and the modeled runs use
values on which the two agree).  Each trace lists the `progress_callback`
invocations of a run in which every filesystem operation succeeds.
--------------------------------------------------------------------- -/

/-- The callbacks of `copy_dir_all` (lines 37-61): one per copied file
(guarded by `total_files > 0`, which always holds inside the loop), then the
unconditional completion event at 100. -/
def copy_dir_all_trace (t : Node) : List (ℚ × String) :=
  let total := totalFiles t
  ((List.range total).map (fun i =>
    (((i : ℚ) + 1) / (total : ℚ) * 100,
      "Backing up... (" ++ toString (i + 1) ++ "/" ++ toString total ++ ")")))
  ++ [((100 : ℚ), "Backup complete. (" ++ toString total ++ "/" ++ toString total ++ ")")]

/-- The callbacks of `create_zip_backup` (lines 63-89): the unconditional
start event at 0, one event per written file, the unconditional completion
event at 100. -/
def create_zip_backup_trace (t : Node) (zip_path : String) : List (ℚ × String) :=
  let total := totalFiles t
  [((0 : ℚ), "Starting zip creation (" ++ toString total ++ " files)...")]
  ++ ((List.range total).map (fun i =>
    (((i : ℚ) + 1) / (total : ℚ) * 100,
      "Creating backup zip: " ++ toString (i + 1) ++ "/" ++ toString total)))
  ++ [((100 : ℚ), "Zip backup completed: " ++ zip_path)]

/-- The callbacks of `UpdaterApp._do_backup` (lines 772-795), all tagged
`backup`: start at 0, the copy trace scaled into 0-70, the zip trace scaled
into 70-100, completion at 100. -/
def do_backup_trace (t : Node) (zip_path : String) : List (ℚ × String × String) :=
  [((0 : ℚ), "Starting backup...", "backup")]
  ++ (copy_dir_all_trace t).map (fun e => (e.1 * (7 / 10 : ℚ), e.2, "backup"))
  ++ (create_zip_backup_trace t zip_path).map
      (fun e => ((70 : ℚ) + e.1 * (3 / 10 : ℚ), e.2, "backup"))
  ++ [((100 : ℚ), "Backup complete: " ++ zip_path, "backup")]

/-- The callbacks of `UpdaterApp._do_apply` (lines 797-874), all tagged
`apply`: with the backup flag, the start event at 0, the copy trace scaled by
0.6, the zip trace scaled into 60-80, then the hard-coded `Backup complete.`
event at 20; then one event per deletion and per addition/replacement at
`20 + done/total*70`; finally `Done.` at 100. -/
def do_apply_trace (mods : Node) (deletes adds replaces : List FileMeta)
    (backup_before_apply : Bool) (zip_path : String) : List (ℚ × String × String) :=
  let total := deletes.length + adds.length + replaces.length
  (if backup_before_apply then
    [((0 : ℚ), "Starting backup before apply...", "apply")]
    ++ (copy_dir_all_trace mods).map (fun e => (e.1 * (3 / 5 : ℚ), e.2, "apply"))
    ++ (create_zip_backup_trace mods zip_path).map
        (fun e => ((60 : ℚ) + e.1 * (1 / 5 : ℚ), e.2, "apply"))
    ++ [((20 : ℚ), "Backup complete.", "apply")]
   else [])
  ++ (deletes.enum.flatMap (fun x =>
       if total > 0 then
         [((20 : ℚ) + (((x.1 : ℚ) + 1) / (total : ℚ)) * 70,
           "Deleting: " ++ pathStr x.2.rel_path, "apply")]
       else []))
  ++ ((adds ++ replaces).enum.flatMap (fun x =>
       if total > 0 then
         [((20 : ℚ) + (((deletes.length : ℚ) + (x.1 : ℚ) + 1) / (total : ℚ)) * 70,
           "Copying: " ++ pathStr x.2.rel_path, "apply")]
       else []))
  ++ [((100 : ℚ), "Done.", "apply")]

/- ---------------------------------------------------------------------
Unfolding lemmas.  `scanEntries` and `Node.wf` are defined by well-founded
recursion through `attach`; these equations restate their one-step unfoldings
without the `attach`, for use with `simp` in proofs and evaluations.
--------------------------------------------------------------------- -/

theorem attach_flatMap_eq {α β : Type _} (cs : List α) (f : α → List β) :
    cs.attach.flatMap (fun x => f x.1) = cs.flatMap f := by
  have h1 : cs.attach.map (fun x => f x.1) = cs.map f := List.attach_map_val cs f
  rw [List.flatMap, List.flatMap, h1]

theorem attach_all_eq {α : Type _} (cs : List α) (g : α → Bool) :
    cs.attach.all (fun x => g x.1) = cs.all g := by
  rw [Bool.eq_iff_iff, List.all_eq_true, List.all_eq_true]
  constructor
  · intro h a ha
    exact h ⟨a, ha⟩ (List.mem_attach cs _)
  · intro h x hx
    exact h x.1 x.2

@[simp]
theorem scanEntries_file (fg : Bool) (relBase : List String) (c : String) :
    scanEntries fg relBase (.file c) = [] := by
  rw [scanEntries]

@[simp]
theorem scanEntries_dir (fg : Bool) (relBase : List String) (cs : List (String × Node)) :
    scanEntries fg relBase (.dir cs) =
      (if fg && skipBase relBase then []
       else
         cs.filterMap (fun x =>
           match x.2 with
           | .dir _ => if fg && badDirName x.1 then none else some (relBase ++ [x.1], WEntry.dirE)
           | .file _ => none)
         ++ cs.filterMap (fun x =>
           match x.2 with
           | .file c => if fg && badFileName x.1 then none else some (relBase ++ [x.1], WEntry.fileE c)
           | .dir _ => none))
      ++ cs.flatMap (fun x =>
           match x.2 with
           | .dir _ => scanEntries fg (relBase ++ [x.1]) x.2
           | .file _ => []) := by
  rw [scanEntries]
  congr 1
  exact attach_flatMap_eq cs (fun x =>
    match x.2 with
    | .dir _ => scanEntries fg (relBase ++ [x.1]) x.2
    | .file _ => [])

theorem chunks8192_foldl (l acc : List Char) :
    (chunks8192 l).foldl (fun a ch => a ++ ch) acc = acc ++ l := by
  rw [chunks8192]
  by_cases h : l = []
  · simp [h]
  · rw [dif_neg h, List.foldl_cons,
      chunks8192_foldl (l.drop 8192) (acc ++ l.take 8192),
      List.append_assoc, List.take_append_drop]
termination_by l.length
decreasing_by
  have : l.length ≠ 0 := by simpa [List.length_eq_zero] using h
  simp only [List.length_drop]
  omega

theorem hexDigitChar_mem (m : Nat) (h : m < 16) :
    hexDigitChar m ∈ "0123456789abcdef".data := by
  interval_cases m <;> decide

theorem hexRep_mem (n : Nat) : ∀ c ∈ hexRep n, c ∈ "0123456789abcdef".data := by
  intro c hc
  rw [hexRep] at hc
  by_cases h : n < 16
  · rw [dif_pos h] at hc
    rcases List.mem_singleton.mp hc with rfl
    exact hexDigitChar_mem n h
  · rw [dif_neg h] at hc
    rcases List.mem_append.mp hc with h1 | h1
    · exact hexRep_mem (n / 16) c h1
    · rcases List.mem_singleton.mp h1 with rfl
      exact hexDigitChar_mem (n % 16) (Nat.mod_lt n (by omega))
termination_by n
decreasing_by exact Nat.div_lt_self (by omega) (by omega)

theorem hexRep_length_le (k : Nat) (n : Nat) (hk : 1 ≤ k) (h : n < 16 ^ k) :
    (hexRep n).length ≤ k := by
  induction k generalizing n with
  | zero => omega
  | succ k ih =>
    rw [hexRep]
    by_cases hn : n < 16
    · rw [dif_pos hn]
      have hlen : ([hexDigitChar n]).length = 1 := rfl
      omega
    · rw [dif_neg hn]
      have hk1 : 1 ≤ k := by
        rcases Nat.eq_zero_or_pos k with hk0 | hpos
        · subst hk0
          norm_num at h
          omega
        · omega
      have hdiv : n / 16 < 16 ^ k := by
        rw [Nat.div_lt_iff_lt_mul (by omega)]
        calc n < 16 ^ (k + 1) := h
        _ = 16 ^ k * 16 := by ring
      have := ih (n / 16) hk1 hdiv
      simp only [List.length_append, List.length_singleton]
      omega

@[simp]
theorem wf_file (c : String) : Node.wf (.file c) = true := by
  rw [Node.wf]

@[simp]
theorem wf_dir (cs : List (String × Node)) :
    Node.wf (.dir cs) =
      (decide ((cs.map Prod.fst).Nodup)
        && cs.all (fun x => x.1 != "" && !(x.1.data.contains '/'))
        && cs.all (fun x => x.2.wf)) := by
  rw [Node.wf]
  congr 1
  exact attach_all_eq cs (fun x => x.2.wf)

@[simp]
theorem nodupKeys_file (c : String) : Node.nodupKeys (.file c) = true := by
  rw [Node.nodupKeys]

@[simp]
theorem nodupKeys_dir (cs : List (String × Node)) :
    Node.nodupKeys (.dir cs) =
      (decide ((cs.map Prod.fst).Nodup) && cs.all (fun x => x.2.nodupKeys)) := by
  rw [Node.nodupKeys]
  congr 1
  exact attach_all_eq cs (fun x => x.2.nodupKeys)

theorem nodupKeys_of_wf : ∀ (n : Node), n.wf = true → n.nodupKeys = true
  | .file c, _ => nodupKeys_file c
  | .dir cs, hw => by
    rw [wf_dir] at hw
    rw [nodupKeys_dir]
    simp only [Bool.and_eq_true, List.all_eq_true, decide_eq_true_eq] at hw ⊢
    obtain ⟨⟨h1, _⟩, h3⟩ := hw
    exact ⟨h1, fun x hx => nodupKeys_of_wf x.2 (h3 x hx)⟩
termination_by n => sizeOf n
decreasing_by
  have h1 := List.sizeOf_lt_of_mem hx
  have h2 : sizeOf x.2 < sizeOf x := by
    obtain ⟨a, b⟩ := x
    simp only [Prod.mk.sizeOf_spec]
    omega
  simp only [Node.dir.sizeOf_spec]
  omega

/- ---------------------------------------------------------------------
Association-list (dict) lemmas.
--------------------------------------------------------------------- -/

theorem lookupA_eq_none_iff (k : List String) (m : List (List String × FMeta)) :
    lookupA k m = none ↔ ∀ x ∈ m, x.1 ≠ k := by
  induction m with
  | nil => simp [lookupA]
  | cons y rest ih =>
    rw [lookupA]
    by_cases h : y.1 = k
    · rw [if_pos h]
      constructor
      · intro hfalse
        exact absurd hfalse (by simp)
      · intro hall
        exact absurd h (hall y (List.mem_cons_self y rest))
    · rw [if_neg h, ih]
      constructor
      · intro hall x hx
        rcases List.mem_cons.mp hx with rfl | hx2
        · exact h
        · exact hall x hx2
      · intro hall x hx
        exact hall x (List.mem_cons_of_mem y hx)

theorem lookupA_mem {k : List String} {v : FMeta} {m : List (List String × FMeta)}
    (h : lookupA k m = some v) : (k, v) ∈ m := by
  induction m with
  | nil => simp [lookupA] at h
  | cons y rest ih =>
    rw [lookupA] at h
    by_cases hy : y.1 = k
    · rw [if_pos hy] at h
      injection h with h2
      rcases y with ⟨a, b⟩
      simp only at hy h2
      subst hy
      subst h2
      exact List.mem_cons_self _ _
    · rw [if_neg hy] at h
      exact List.mem_cons_of_mem y (ih h)

theorem lookupA_of_mem {m : List (List String × FMeta)} (hnd : (m.map Prod.fst).Nodup)
    {x : List String × FMeta} (hx : x ∈ m) : lookupA x.1 m = some x.2 := by
  induction m with
  | nil => simp at hx
  | cons y rest ih =>
    rw [List.map_cons, List.nodup_cons] at hnd
    obtain ⟨hy, hrest⟩ := hnd
    rcases List.mem_cons.mp hx with rfl | hx2
    · rw [lookupA, if_pos rfl]
    · rw [lookupA]
      by_cases heq : y.1 = x.1
      · exfalso
        apply hy
        rw [heq]
        exact List.mem_map_of_mem Prod.fst hx2
      · rw [if_neg heq]
        exact ih hrest hx2

theorem eq_of_mem_nodup_keys {m : List (List String × FMeta)} (hnd : (m.map Prod.fst).Nodup)
    {x y : List String × FMeta} (hx : x ∈ m) (hy : y ∈ m) (hk : x.1 = y.1) : x = y := by
  have h1 := lookupA_of_mem hnd hx
  have h2 := lookupA_of_mem hnd hy
  rw [hk, h2] at h1
  injection h1 with h3
  rcases x with ⟨a, b⟩
  rcases y with ⟨c, d⟩
  simp only at hk h3
  simp [hk, h3]

/- ---------------------------------------------------------------------
Diff bucket characterizations.
--------------------------------------------------------------------- -/

theorem mem_deletes_keys {mod_map repo_map : List (List String × FMeta)} {k : List String} :
    k ∈ ((scanDiff mod_map repo_map).deletes.map FileMeta.rel_path) ↔
      (∃ x ∈ mod_map, x.1 = k) ∧ lookupA k repo_map = none := by
  simp only [scanDiff, List.mem_map, List.mem_filterMap]
  constructor
  · rintro ⟨e, ⟨x, hx, hcond⟩, hrel⟩
    split_ifs at hcond with hl
    · injection hcond with h2
      subst h2
      exact ⟨⟨x, hx, hrel⟩, hrel ▸ hl⟩
  · rintro ⟨⟨x, hx, rfl⟩, hnone⟩
    exact ⟨FileMeta.mk x.1 x.2.is_dir, ⟨x, hx, by rw [if_pos hnone]⟩, rfl⟩

theorem mem_adds_keys {mod_map repo_map : List (List String × FMeta)} {k : List String} :
    k ∈ ((scanDiff mod_map repo_map).adds.map FileMeta.rel_path) ↔
      (∃ x ∈ repo_map, x.1 = k) ∧ lookupA k mod_map = none := by
  simp only [scanDiff, List.mem_map, List.mem_filterMap]
  constructor
  · rintro ⟨e, ⟨x, hx, hcond⟩, hrel⟩
    split_ifs at hcond with hl
    · injection hcond with h2
      subst h2
      exact ⟨⟨x, hx, hrel⟩, hrel ▸ hl⟩
  · rintro ⟨⟨x, hx, rfl⟩, hnone⟩
    exact ⟨FileMeta.mk x.1 x.2.is_dir, ⟨x, hx, by rw [if_pos hnone]⟩, rfl⟩

theorem mem_replaces_keys {mod_map repo_map : List (List String × FMeta)} {k : List String} :
    k ∈ ((scanDiff mod_map repo_map).replaces.map FileMeta.rel_path) ↔
      ∃ x ∈ repo_map, x.1 = k ∧ ∃ mm, lookupA k mod_map = some mm ∧
        x.2.is_dir = false ∧ x.2.hash ≠ mm.hash := by
  simp only [scanDiff, List.mem_map, List.mem_filterMap]
  constructor
  · rintro ⟨e, ⟨x, hx, hcond⟩, hrel⟩
    rcases hl : lookupA x.1 mod_map with _ | mm <;> rw [hl] at hcond
    · exact absurd hcond (by simp)
    · simp only at hcond
      split_ifs at hcond with hc
      · injection hcond with h2
        have hx1 : x.1 = k := by rw [← hrel, ← h2]
        exact ⟨x, hx, hx1, mm, hx1 ▸ hl, hc.1, hc.2⟩
  · rintro ⟨x, hx, rfl, mm, hl, hc1, hc2⟩
    refine ⟨FileMeta.mk x.1 false, ⟨x, hx, ?_⟩, rfl⟩
    simp only [hl]
    rw [if_pos ⟨hc1, hc2⟩]

theorem mem_ignores_keys {mod_map repo_map : List (List String × FMeta)} {k : List String} :
    k ∈ ((scanDiff mod_map repo_map).ignores.map FileMeta.rel_path) ↔
      ∃ x ∈ repo_map, x.1 = k ∧ ∃ mm, lookupA k mod_map = some mm ∧
        ¬(x.2.is_dir = false ∧ x.2.hash ≠ mm.hash) ∧ x.2.is_dir = mm.is_dir := by
  simp only [scanDiff, List.mem_map, List.mem_filterMap]
  constructor
  · rintro ⟨e, ⟨x, hx, hcond⟩, hrel⟩
    rcases hl : lookupA x.1 mod_map with _ | mm <;> rw [hl] at hcond
    · exact absurd hcond (by simp)
    · simp only at hcond
      split_ifs at hcond with hc1 hc2
      · injection hcond with h2
        have hx1 : x.1 = k := by rw [← hrel, ← h2]
        exact ⟨x, hx, hx1, mm, hx1 ▸ hl, hc1, hc2⟩
  · rintro ⟨x, hx, rfl, mm, hl, hc1, hc2⟩
    refine ⟨FileMeta.mk x.1 x.2.is_dir, ⟨x, hx, ?_⟩, rfl⟩
    simp only [hl]
    rw [if_neg hc1, if_pos hc2]

theorem nodup_keys_filterMap (m : List (List String × FMeta))
    (f : (List String × FMeta) → Option FileMeta)
    (hf : ∀ x e, f x = some e → e.rel_path = x.1) (hnd : (m.map Prod.fst).Nodup) :
    ((m.filterMap f).map FileMeta.rel_path).Nodup := by
  induction m with
  | nil => simp
  | cons y rest ih =>
    rw [List.map_cons, List.nodup_cons] at hnd
    obtain ⟨hy, hrest⟩ := hnd
    rw [List.filterMap_cons]
    cases hfy : f y with
    | none => exact ih hrest
    | some e =>
      rw [List.map_cons, List.nodup_cons]
      refine ⟨?_, ih hrest⟩
      intro hmem
      rcases List.mem_map.mp hmem with ⟨e2, he2, heq⟩
      rcases List.mem_filterMap.mp he2 with ⟨x, hx, hfx⟩
      apply hy
      rw [List.mem_map]
      refine ⟨x, hx, ?_⟩
      rw [← hf x e2 hfx, heq, hf y e hfy]

/- ---------------------------------------------------------------------
Claim C5.
--------------------------------------------------------------------- -/

/-- C5: the content hasher is total over its input: it is a function into
strings that never propagates a failure.  On a successful read it returns
exactly the 16-character lowercase-hexadecimal encoding of the 64-bit digest
of the streamed 8-KiB chunks (whose concatenation is the whole content), and
on a read failure with message `e` it returns the sentinel `ERR(e)`. -/
theorem c5_hash_file_contract (dg : String → Nat) (r : Except String String) :
    (∀ e, r = .error e → hash_file dg r = "ERR(" ++ e ++ ")") ∧
    (∀ c, r = .ok c →
      hash_file dg r = format016x (dg c % 2 ^ 64) ∧
      (hash_file dg r).length = 16 ∧
      ∀ ch ∈ (hash_file dg r).data, ch ∈ "0123456789abcdef".data) := by
  constructor
  · rintro e rfl
    rfl
  · rintro c rfl
    have hstream : (chunks8192 c.data).foldl (fun a ch => a ++ ch) [] = c.data := by
      simpa using chunks8192_foldl c.data []
    have heq : hash_file dg (.ok c) = format016x (dg c % 2 ^ 64) := by
      show format016x (dg (String.mk ((chunks8192 c.data).foldl (fun a ch => a ++ ch) [])) % 2 ^ 64)
        = format016x (dg c % 2 ^ 64)
      rw [hstream]
    have hlt : dg c % 2 ^ 64 < 16 ^ 16 := by
      have hm := Nat.mod_lt (dg c) (show 0 < 2 ^ 64 by norm_num)
      calc dg c % 2 ^ 64 < 2 ^ 64 := hm
        _ = 16 ^ 16 := by norm_num
    have hlen : (hexRep (dg c % 2 ^ 64)).length ≤ 16 :=
      hexRep_length_le 16 _ (by norm_num) hlt
    refine ⟨heq, ?_, ?_⟩
    · rw [heq]
      have hshow : (format016x (dg c % 2 ^ 64)).length
          = (List.replicate (16 - (hexRep (dg c % 2 ^ 64)).length) '0'
              ++ hexRep (dg c % 2 ^ 64)).length := rfl
      rw [hshow, List.length_append, List.length_replicate]
      omega
    · rw [heq]
      intro ch hch
      have hdata : (format016x (dg c % 2 ^ 64)).data
          = List.replicate (16 - (hexRep (dg c % 2 ^ 64)).length) '0'
              ++ hexRep (dg c % 2 ^ 64) := rfl
      rw [hdata] at hch
      rcases List.mem_append.mp hch with h1 | h1
      · rcases List.eq_of_mem_replicate h1 with rfl
        decide
      · exact hexRep_mem _ ch h1

/-- Witness for C5 at a concrete digest (the content length), a successful
read of `"hello"` and a failed read with message `"boom"`. -/
theorem c5_hash_file_contract_witness :
    hash_file (fun s => s.data.length) (.ok "hello") = format016x 5 ∧
    (hash_file (fun s => s.data.length) (.ok "hello")).length = 16 ∧
    hash_file (fun s => s.data.length) (.error "boom") = "ERR(" ++ "boom" ++ ")" := by
  have T := c5_hash_file_contract (fun s => s.data.length) (.ok "hello")
  have T2 := c5_hash_file_contract (fun s => s.data.length) (.error "boom")
  have hson := T.2 "hello" rfl
  refine ⟨?_, hson.2.1, T2.1 "boom" rfl⟩
  rw [hson.1]
  congr 1

/- ---------------------------------------------------------------------
Claim C1.
--------------------------------------------------------------------- -/

/-- C1, counterexample to the claim as stated: with live map `{x: directory}`
and reference map `{x: file, hash "abc"}`, the key `x` lands in
`replacements` although the live entry is a directory, so `replacements` is
not restricted to pairs where both entries are files with differing hashes. -/
theorem c1_counterexample :
    ¬ (∀ e ∈ (scanDiff [(["x"], FMeta.mk true "")] [(["x"], FMeta.mk false "abc")]).replaces,
        (lookupA e.rel_path [(["x"], FMeta.mk true "")]).map FMeta.is_dir = some false ∧
        (lookupA e.rel_path [(["x"], FMeta.mk false "abc")]).map FMeta.is_dir = some false ∧
        (lookupA e.rel_path [(["x"], FMeta.mk true "")]).map FMeta.hash ≠
          (lookupA e.rel_path [(["x"], FMeta.mk false "abc")]).map FMeta.hash) := by
  decide

/-- C1 (amended): for maps with pairwise-distinct keys, `deletions` are
exactly the keys of the live map absent from the reference map, each carrying
the live entry's isDir flag; `additions` are exactly the keys of the
reference map absent from the live map, each carrying the reference entry's
isDir flag; and `replacements` is contained in the keys present in both maps
restricted to pairs where the *reference* entry is a file and the two hashes
differ (the live entry need not be a file), each carrying the flag `false`. -/
theorem c1_diff_classification (mod_map repo_map : List (List String × FMeta))
    (hm : (mod_map.map Prod.fst).Nodup) (hr : (repo_map.map Prod.fst).Nodup) :
    (∀ k b, FileMeta.mk k b ∈ (scanDiff mod_map repo_map).deletes ↔
      (∃ mm, lookupA k mod_map = some mm ∧ mm.is_dir = b) ∧ lookupA k repo_map = none) ∧
    (∀ k b, FileMeta.mk k b ∈ (scanDiff mod_map repo_map).adds ↔
      (∃ rm, lookupA k repo_map = some rm ∧ rm.is_dir = b) ∧ lookupA k mod_map = none) ∧
    (∀ k b, FileMeta.mk k b ∈ (scanDiff mod_map repo_map).replaces →
      b = false ∧ ∃ rm mm, lookupA k repo_map = some rm ∧ lookupA k mod_map = some mm ∧
        rm.is_dir = false ∧ rm.hash ≠ mm.hash) := by
  refine ⟨?_, ?_, ?_⟩
  · intro k b
    simp only [scanDiff, List.mem_filterMap]
    constructor
    · rintro ⟨x, hx, hcond⟩
      split_ifs at hcond with hl
      · injection hcond with h2
        rcases FileMeta.mk.injEq _ _ _ _ ▸ h2 with ⟨rfl, rfl⟩
        exact ⟨⟨x.2, lookupA_of_mem hm hx, rfl⟩, hl⟩
    · rintro ⟨⟨mm, hmm, rfl⟩, hnone⟩
      exact ⟨(k, mm), lookupA_mem hmm, by rw [if_pos hnone]⟩
  · intro k b
    simp only [scanDiff, List.mem_filterMap]
    constructor
    · rintro ⟨x, hx, hcond⟩
      split_ifs at hcond with hl
      · injection hcond with h2
        rcases FileMeta.mk.injEq _ _ _ _ ▸ h2 with ⟨rfl, rfl⟩
        exact ⟨⟨x.2, lookupA_of_mem hr hx, rfl⟩, hl⟩
    · rintro ⟨⟨rm, hrm, rfl⟩, hnone⟩
      exact ⟨(k, rm), lookupA_mem hrm, by rw [if_pos hnone]⟩
  · intro k b
    simp only [scanDiff, List.mem_filterMap]
    rintro ⟨x, hx, hcond⟩
    rcases hl : lookupA x.1 mod_map with _ | mm <;> rw [hl] at hcond
    · exact absurd hcond (by simp)
    · simp only at hcond
      split_ifs at hcond with hc
      · injection hcond with h2
        rcases FileMeta.mk.injEq _ _ _ _ ▸ h2 with ⟨rfl, rfl⟩
        exact ⟨rfl, x.2, mm, lookupA_of_mem hr hx, hl, hc.1, hc.2⟩

/-- Witness for C1 at the scenario of the specification's testable
properties: live `{a.txt: h1, b.txt: h2}` against reference
`{a.txt: h1, c.txt: h3}` yields `b.txt` among the deletions. -/
theorem c1_diff_classification_witness :
    FileMeta.mk ["b.txt"] false ∈
      (scanDiff [(["a.txt"], FMeta.mk false "h1"), (["b.txt"], FMeta.mk false "h2")]
        [(["a.txt"], FMeta.mk false "h1"), (["c.txt"], FMeta.mk false "h3")]).deletes :=
  ((c1_diff_classification
      [(["a.txt"], FMeta.mk false "h1"), (["b.txt"], FMeta.mk false "h2")]
      [(["a.txt"], FMeta.mk false "h1"), (["c.txt"], FMeta.mk false "h3")]
      (by decide) (by decide)).1 ["b.txt"] false).mpr
    ⟨⟨FMeta.mk false "h2", by decide, rfl⟩, by decide⟩

/- ---------------------------------------------------------------------
Claim C2.
--------------------------------------------------------------------- -/

/-- C2, counterexample to the claim as stated: with live map `{x: directory}`
and reference map `{x: file, hash "abc"}` the isDir flags for `x` disagree,
yet `x` appears in the `replacements` bucket rather than in none of the four
buckets. -/
theorem c2_counterexample :
    (lookupA ["x"] [(["x"], FMeta.mk true "")]).map FMeta.is_dir = some true ∧
    (lookupA ["x"] [(["x"], FMeta.mk false "abc")]).map FMeta.is_dir = some false ∧
    FileMeta.mk ["x"] false ∈
      (scanDiff [(["x"], FMeta.mk true "")] [(["x"], FMeta.mk false "abc")]).replaces := by
  decide

/-- C2 (amended): for maps with pairwise-distinct keys, a key present in both
maps whose isDir flags disagree never appears in `deletions`, `additions` or
`ignores`; when the *reference* entry is the directory the key appears in no
bucket at all, but when the reference entry is the file (the live entry being
the directory) the key appears in `replacements` exactly when the two hashes
differ. -/
theorem c2_type_mismatch_behavior (mod_map repo_map : List (List String × FMeta))
    (_hm : (mod_map.map Prod.fst).Nodup) (hr : (repo_map.map Prod.fst).Nodup)
    (k : List String) (mm rm : FMeta)
    (h1 : lookupA k mod_map = some mm) (h2 : lookupA k repo_map = some rm)
    (hne : mm.is_dir ≠ rm.is_dir) :
    k ∉ ((scanDiff mod_map repo_map).deletes.map FileMeta.rel_path) ∧
    k ∉ ((scanDiff mod_map repo_map).adds.map FileMeta.rel_path) ∧
    k ∉ ((scanDiff mod_map repo_map).ignores.map FileMeta.rel_path) ∧
    (rm.is_dir = true → k ∉ ((scanDiff mod_map repo_map).replaces.map FileMeta.rel_path)) ∧
    (rm.is_dir = false →
      (k ∈ ((scanDiff mod_map repo_map).replaces.map FileMeta.rel_path) ↔ rm.hash ≠ mm.hash)) := by
  refine ⟨?_, ?_, ?_, ?_, ?_⟩
  · intro hmem
    rcases mem_deletes_keys.mp hmem with ⟨_, hnone⟩
    rw [h2] at hnone
    exact absurd hnone (by simp)
  · intro hmem
    rcases mem_adds_keys.mp hmem with ⟨_, hnone⟩
    rw [h1] at hnone
    exact absurd hnone (by simp)
  · intro hmem
    rcases mem_ignores_keys.mp hmem with ⟨x, hx, hx1, mm2, hl, _, hflag⟩
    rw [h1] at hl
    injection hl with hl2
    subst hl2
    have hxr : x = (k, rm) := eq_of_mem_nodup_keys hr hx (lookupA_mem h2) (by rw [hx1])
    rw [hxr] at hflag
    exact hne (hflag ▸ rfl)
  · intro hrdir hmem
    rcases mem_replaces_keys.mp hmem with ⟨x, hx, hx1, mm2, hl, hfile, _⟩
    have hxr : x = (k, rm) := eq_of_mem_nodup_keys hr hx (lookupA_mem h2) (by rw [hx1])
    rw [hxr] at hfile
    simp only at hfile
    rw [hrdir] at hfile
    exact absurd hfile (by simp)
  · intro hrfile
    constructor
    · intro hmem
      rcases mem_replaces_keys.mp hmem with ⟨x, hx, hx1, mm2, hl, _, hhash⟩
      rw [h1] at hl
      injection hl with hl2
      subst hl2
      have hxr : x = (k, rm) := eq_of_mem_nodup_keys hr hx (lookupA_mem h2) (by rw [hx1])
      rw [hxr] at hhash
      exact hhash
    · intro hhash
      exact mem_replaces_keys.mpr ⟨(k, rm), lookupA_mem h2, rfl, mm, h1, hrfile, hhash⟩

/-- Witness for C2: live `{x: file with hash "h"}` against reference
`{x: directory}` — the flags disagree with the reference entry the directory,
and the key lands in no bucket. -/
theorem c2_type_mismatch_behavior_witness :
    ["x"] ∉ ((scanDiff [(["x"], FMeta.mk false "h")] [(["x"], FMeta.mk true "")]).deletes.map
        FileMeta.rel_path) ∧
    ["x"] ∉ ((scanDiff [(["x"], FMeta.mk false "h")] [(["x"], FMeta.mk true "")]).adds.map
        FileMeta.rel_path) ∧
    ["x"] ∉ ((scanDiff [(["x"], FMeta.mk false "h")] [(["x"], FMeta.mk true "")]).ignores.map
        FileMeta.rel_path) ∧
    ["x"] ∉ ((scanDiff [(["x"], FMeta.mk false "h")] [(["x"], FMeta.mk true "")]).replaces.map
        FileMeta.rel_path) := by
  have T := c2_type_mismatch_behavior [(["x"], FMeta.mk false "h")] [(["x"], FMeta.mk true "")]
    (by decide) (by decide) ["x"] (FMeta.mk false "h") (FMeta.mk true "")
    (by decide) (by decide) (by decide)
  exact ⟨T.1, T.2.1, T.2.2.1, T.2.2.2.1 rfl⟩

/- ---------------------------------------------------------------------
Claim C7.
--------------------------------------------------------------------- -/

/-- C7: for maps with pairwise-distinct keys, the four diff buckets are
mutually exclusive by key — no relPath appears in more than one of
deletions, additions, replacements and ignores, and no relPath appears twice
within one bucket. -/
theorem c7_buckets_mutually_exclusive (mod_map repo_map : List (List String × FMeta))
    (hm : (mod_map.map Prod.fst).Nodup) (hr : (repo_map.map Prod.fst).Nodup) :
    ((scanDiff mod_map repo_map).deletes.map FileMeta.rel_path).Nodup ∧
    ((scanDiff mod_map repo_map).adds.map FileMeta.rel_path).Nodup ∧
    ((scanDiff mod_map repo_map).replaces.map FileMeta.rel_path).Nodup ∧
    ((scanDiff mod_map repo_map).ignores.map FileMeta.rel_path).Nodup ∧
    (∀ k, k ∈ ((scanDiff mod_map repo_map).deletes.map FileMeta.rel_path) →
      k ∉ ((scanDiff mod_map repo_map).adds.map FileMeta.rel_path) ∧
      k ∉ ((scanDiff mod_map repo_map).replaces.map FileMeta.rel_path) ∧
      k ∉ ((scanDiff mod_map repo_map).ignores.map FileMeta.rel_path)) ∧
    (∀ k, k ∈ ((scanDiff mod_map repo_map).adds.map FileMeta.rel_path) →
      k ∉ ((scanDiff mod_map repo_map).replaces.map FileMeta.rel_path) ∧
      k ∉ ((scanDiff mod_map repo_map).ignores.map FileMeta.rel_path)) ∧
    (∀ k, k ∈ ((scanDiff mod_map repo_map).replaces.map FileMeta.rel_path) →
      k ∉ ((scanDiff mod_map repo_map).ignores.map FileMeta.rel_path)) := by
  refine ⟨?_, ?_, ?_, ?_, ?_, ?_, ?_⟩
  · apply nodup_keys_filterMap _ _ _ hm
    intro x e hfe
    split_ifs at hfe
    · injection hfe with h2
      rw [← h2]
  · apply nodup_keys_filterMap _ _ _ hr
    intro x e hfe
    split_ifs at hfe
    · injection hfe with h2
      rw [← h2]
  · apply nodup_keys_filterMap _ _ _ hr
    intro x e hfe
    rcases hl : lookupA x.1 mod_map with _ | mm <;> rw [hl] at hfe
    · exact absurd hfe (by simp)
    · simp only at hfe
      split_ifs at hfe
      · injection hfe with h2
        rw [← h2]
  · apply nodup_keys_filterMap _ _ _ hr
    intro x e hfe
    rcases hl : lookupA x.1 mod_map with _ | mm <;> rw [hl] at hfe
    · exact absurd hfe (by simp)
    · simp only at hfe
      split_ifs at hfe
      · injection hfe with h2
        rw [← h2]
  · intro k hdel
    rcases mem_deletes_keys.mp hdel with ⟨⟨x, hx, hx1⟩, hnone⟩
    have hmod : lookupA k mod_map ≠ none := by
      intro hcn
      rw [lookupA_eq_none_iff] at hcn
      exact hcn x hx hx1
    refine ⟨?_, ?_, ?_⟩
    · intro hmem
      exact hmod (mem_adds_keys.mp hmem).2
    · intro hmem
      rcases mem_replaces_keys.mp hmem with ⟨y, hy, hy1, _⟩
      rw [lookupA_eq_none_iff] at hnone
      exact hnone y hy hy1
    · intro hmem
      rcases mem_ignores_keys.mp hmem with ⟨y, hy, hy1, _⟩
      rw [lookupA_eq_none_iff] at hnone
      exact hnone y hy hy1
  · intro k hadd
    rcases mem_adds_keys.mp hadd with ⟨_, hnone⟩
    constructor
    · intro hmem
      rcases mem_replaces_keys.mp hmem with ⟨_, _, _, mm, hl, _⟩
      rw [hnone] at hl
      exact absurd hl (by simp)
    · intro hmem
      rcases mem_ignores_keys.mp hmem with ⟨_, _, _, mm, hl, _⟩
      rw [hnone] at hl
      exact absurd hl (by simp)
  · intro k hrep hign
    rcases mem_replaces_keys.mp hrep with ⟨x, hx, hx1, mm, hl, hc1, hc2⟩
    rcases mem_ignores_keys.mp hign with ⟨y, hy, hy1, mm2, hl2, hnc, _⟩
    have hxy : x = y := eq_of_mem_nodup_keys hr hx hy (by rw [hx1, hy1])
    rw [hl] at hl2
    injection hl2 with hl3
    subst hl3
    subst hxy
    exact hnc ⟨hc1, hc2⟩

/-- Witness for C7 at the scenario of the specification's testable
properties. -/
theorem c7_buckets_mutually_exclusive_witness :
    ((scanDiff [(["a.txt"], FMeta.mk false "h1"), (["b.txt"], FMeta.mk false "h2")]
      [(["a.txt"], FMeta.mk false "h1"), (["c.txt"], FMeta.mk false "h3")]).deletes.map
        FileMeta.rel_path).Nodup ∧
    (∀ k, k ∈ ((scanDiff [(["a.txt"], FMeta.mk false "h1"), (["b.txt"], FMeta.mk false "h2")]
      [(["a.txt"], FMeta.mk false "h1"), (["c.txt"], FMeta.mk false "h3")]).deletes.map
        FileMeta.rel_path) →
      k ∉ ((scanDiff [(["a.txt"], FMeta.mk false "h1"), (["b.txt"], FMeta.mk false "h2")]
        [(["a.txt"], FMeta.mk false "h1"), (["c.txt"], FMeta.mk false "h3")]).ignores.map
          FileMeta.rel_path)) := by
  have T := c7_buckets_mutually_exclusive
    [(["a.txt"], FMeta.mk false "h1"), (["b.txt"], FMeta.mk false "h2")]
    [(["a.txt"], FMeta.mk false "h1"), (["c.txt"], FMeta.mk false "h3")]
    (by decide) (by decide)
  exact ⟨T.1, fun k hk => (T.2.2.2.2.1 k hk).2.2⟩

/- ---------------------------------------------------------------------
Claim C3.
--------------------------------------------------------------------- -/

/-- C3 (code bug): in an apply run with the backup flag set, the sequence of
`apply`-tagged percents is not monotonically non-decreasing.  Evaluated at an
empty live tree with an empty diff, `_do_apply` emits the percents
0, 60, 60, 80, 20, 100: the zip-completion event reports 80 and the
subsequent hard-coded backup-completion event reports 20. -/
theorem c3_apply_backup_percent_not_monotone :
    (do_apply_trace (Node.dir []) [] [] [] true "Backup.zip").map (fun e => e.1)
      = [0, 60, 60, 80, 20, 100] ∧
    ¬ List.Pairwise (fun a b => a ≤ b)
      ((do_apply_trace (Node.dir []) [] [] [] true "Backup.zip").map (fun e => e.1)) := by
  have h : (do_apply_trace (Node.dir []) [] [] [] true "Backup.zip").map (fun e => e.1)
      = [0, 60, 60, 80, 20, 100] := by
    simp [do_apply_trace, copy_dir_all_trace, create_zip_backup_trace, totalFiles, zipList]
    norm_num
  refine ⟨h, ?_⟩
  rw [h]
  decide

/- ---------------------------------------------------------------------
Claim C8.
--------------------------------------------------------------------- -/

/-- C8, counterexample to the claim as stated: a backup of a source tree with
zero files does produce percent-carrying progress events (the unconditional
phase start/completion callbacks), so the trace is not empty. -/
theorem c8_counterexample :
    totalFiles (Node.dir []) = 0 ∧ do_backup_trace (Node.dir []) "Backup.zip" ≠ [] := by
  constructor
  · simp [totalFiles, zipList]
  · simp [do_backup_trace]

/-- C8 (amended): for every source tree with zero files, both backup phases
complete without a division fault (the per-file percent computation is
guarded by `total_files > 0` and is never evaluated) and emit no per-file
percent updates; the only events are the fixed phase start and completion
callbacks, at 100 for the copy phase and at 0 and 100 for the zip phase
(scaled to 70/70/100 inside `_do_backup`). -/
theorem c8_zero_files_trace (t : Node) (zip_path : String) (h : totalFiles t = 0) :
    copy_dir_all_trace t = [((100 : ℚ), "Backup complete. (0/0)")] ∧
    create_zip_backup_trace t zip_path =
      [((0 : ℚ), "Starting zip creation (0 files)..."),
       ((100 : ℚ), "Zip backup completed: " ++ zip_path)] ∧
    do_backup_trace t zip_path =
      [((0 : ℚ), "Starting backup...", "backup"),
       ((70 : ℚ), "Backup complete. (0/0)", "backup"),
       ((70 : ℚ), "Starting zip creation (0 files)...", "backup"),
       ((100 : ℚ), "Zip backup completed: " ++ zip_path, "backup"),
       ((100 : ℚ), "Backup complete: " ++ zip_path, "backup")] := by
  refine ⟨?_, ?_, ?_⟩ <;>
    simp [copy_dir_all_trace, create_zip_backup_trace, do_backup_trace, h] <;>
    norm_num <;>
    decide

/- ---------------------------------------------------------------------
Claim C10.
--------------------------------------------------------------------- -/

/-- C10: in apply Phase 2, an addition/replacement entry that is a file whose
source path is absent from the staging repository is silently skipped: the
step yields no error and leaves the live tree (in particular the destination
path) unchanged, and the rest of the loop proceeds exactly as if the entry
were not there, so the apply can still return success. -/
theorem c10_missing_source_skipped (repo : Node) (repo_dir mods_path : String)
    (copyFail : FileMeta → Option String) (mods : Node) (m : FileMeta) (rest : List FileMeta)
    (hf : m.is_dir = false) (hs : nodeAt repo m.rel_path = none) :
    phase2Step repo repo_dir mods_path mods m (copyFail m) = .ok mods ∧
    phase2 repo repo_dir mods_path copyFail mods (m :: rest) =
      phase2 repo repo_dir mods_path copyFail mods rest := by
  have hstep : phase2Step repo repo_dir mods_path mods m (copyFail m) = .ok mods := by
    rw [phase2Step.eq_def, if_neg (by simp [hf])]
    simp only [hs]
  refine ⟨hstep, ?_⟩
  rw [phase2, hstep]

/-- Witness for C10: staging repository without `g.txt`, a file entry for
`g.txt`, and one further entry that succeeds — the apply's Phase 2 returns
success with the missing-source entry skipped. -/
theorem c10_missing_source_skipped_witness :
    phase2 (Node.dir [("f.txt", Node.file "c")]) "R" "M" (fun _ => none) (Node.dir [])
        [FileMeta.mk ["g.txt"] false, FileMeta.mk ["f.txt"] false] =
      phase2 (Node.dir [("f.txt", Node.file "c")]) "R" "M" (fun _ => none) (Node.dir [])
        [FileMeta.mk ["f.txt"] false] ∧
    phase2 (Node.dir [("f.txt", Node.file "c")]) "R" "M" (fun _ => none) (Node.dir [])
        [FileMeta.mk ["g.txt"] false, FileMeta.mk ["f.txt"] false] =
      .ok (Node.dir [("f.txt", Node.file "c")]) := by
  have T := c10_missing_source_skipped (Node.dir [("f.txt", Node.file "c")]) "R" "M"
    (fun _ => none) (Node.dir []) (FileMeta.mk ["g.txt"] false) [FileMeta.mk ["f.txt"] false]
    rfl (by rfl)
  refine ⟨T.2, ?_⟩
  rw [T.2]
  rfl

/- ---------------------------------------------------------------------
Claim C6.
--------------------------------------------------------------------- -/

theorem phase2Step_error {repo : Node} {repo_dir mods_path : String} {mods : Node}
    {m : FileMeta} {osf : Option String} {e : String}
    (h : phase2Step repo repo_dir mods_path mods m osf = .error e) :
    ∃ ex, e = copyFailMsg repo_dir mods_path m ex := by
  rw [phase2Step.eq_def] at h
  by_cases hdir : m.is_dir = true
  · rw [if_pos hdir] at h
    by_cases hex : (nodeAt mods m.rel_path).isSome = true
    · rw [if_pos hex] at h
      exact Except.noConfusion h
    · rw [if_neg hex] at h
      cases hosf : osf with
      | some ex =>
        rw [hosf] at h
        injection h with h3
        exact ⟨ex, h3.symm⟩
      | none =>
        rw [hosf] at h
        exact Except.noConfusion h
  · rw [if_neg hdir] at h
    cases hsrc : nodeAt repo m.rel_path with
    | none =>
      rw [hsrc] at h
      exact Except.noConfusion h
    | some n =>
      rw [hsrc] at h
      cases n with
      | dir cs =>
        injection h with h3
        exact ⟨osf.getD "src is a directory", h3.symm⟩
      | file c =>
        cases hosf : osf with
        | some ex =>
          rw [hosf] at h
          injection h with h3
          exact ⟨ex, h3.symm⟩
        | none =>
          rw [hosf] at h
          exact Except.noConfusion h

theorem phase2_error_mem (repo : Node) (repo_dir mods_path : String)
    (copyFail : FileMeta → Option String) :
    ∀ (l : List FileMeta) (mods : Node) (e : String),
      phase2 repo repo_dir mods_path copyFail mods l = .error e →
      ∃ m ∈ l, ∃ ex, e = copyFailMsg repo_dir mods_path m ex := by
  intro l
  induction l with
  | nil =>
    intro mods e h
    rw [phase2] at h
    exact absurd h (by simp)
  | cons m rest ih =>
    intro mods e h
    rw [phase2] at h
    rcases hstep : phase2Step repo repo_dir mods_path mods m (copyFail m) with e2 | mods2 <;>
      rw [hstep] at h
    · injection h with h3
      subst h3
      rcases phase2Step_error hstep with ⟨ex, hex⟩
      exact ⟨m, List.mem_cons_self m rest, ex, hex⟩
    · rcases ih mods2 e h with ⟨m2, hm2, ex, hex⟩
      exact ⟨m2, List.mem_cons_of_mem m hm2, ex, hex⟩

/-- C6: apply's error handling is asymmetric.  Whatever the per-entry
deletion failures, no error of the apply ever originates in Phase 1: every
error it returns is either the optional backup phase's failure or a fatal
Phase-2 `Copy failed` error naming the specific source and destination paths
of an addition/replacement entry.  Conversely, with no additions and no
replacements (and no backup), the apply succeeds for every deletion-failure
oracle — deletion failures never abort or surface. -/
theorem c6_apply_error_asymmetry (mods repo : Node) (mods_path repo_dir : String)
    (adds deletes replaces : List FileMeta) (backup_before_apply : Bool)
    (backupFail : Option String) (backupZip : String)
    (delFail : FileMeta → Bool) (copyFail : FileMeta → Option String) :
    (∀ e, do_apply mods repo mods_path repo_dir adds deletes replaces backup_before_apply
        backupFail backupZip delFail copyFail = .error e →
      (backup_before_apply = true ∧ ∃ bm, backupFail = some bm ∧
        e = "Failed applying changes: " ++ bm) ∨
      (∃ m ∈ adds ++ replaces, ∃ ex,
        e = "Failed applying changes: " ++ copyFailMsg repo_dir mods_path m ex)) ∧
    (adds = [] → replaces = [] → backup_before_apply = false →
      do_apply mods repo mods_path repo_dir adds deletes replaces backup_before_apply
        backupFail backupZip delFail copyFail =
        .ok ("", phase1 mods deletes delFail)) := by
  constructor
  · intro e h
    rw [do_apply] at h
    by_cases hb : backup_before_apply = true ∧ backupFail.isSome = true
    · left
      rw [if_pos hb] at h
      obtain ⟨hb1, hb2⟩ := hb
      rcases Option.isSome_iff_exists.mp hb2 with ⟨bm, hbm⟩
      refine ⟨hb1, bm, hbm, ?_⟩
      injection h with h3
      rw [← h3, hbm]
      rfl
    · right
      rw [if_neg hb] at h
      rcases hp : phase2 repo repo_dir mods_path copyFail (phase1 mods deletes delFail)
          (adds ++ replaces) with e2 | final <;> rw [hp] at h
      · injection h with h3
        subst h3
        rcases phase2_error_mem repo repo_dir mods_path copyFail _ _ _ hp with ⟨m, hm, ex, hex⟩
        exact ⟨m, hm, ex, by rw [hex]⟩
      · exact Except.noConfusion h
  · rintro rfl rfl rfl
    rw [do_apply, if_neg (by simp)]
    rw [show ([] : List FileMeta) ++ [] = [] from rfl, phase2]
    rfl

/-- Witness for C6: a failing copy of `f.txt` aborts the apply with the
`Copy failed` error naming `R/f.txt` and `M/f.txt`; and with an empty
adds/replaces list the apply succeeds even though every deletion fails. -/
theorem c6_apply_error_asymmetry_witness :
    do_apply (Node.dir []) (Node.dir [("f.txt", Node.file "c")]) "M" "R"
        [FileMeta.mk ["f.txt"] false] [] [] false none "B.zip"
        (fun _ => false) (fun _ => some "denied")
      = .error ("Failed applying changes: Copy failed for R/f.txt to M/f.txt: denied") ∧
    (∃ m ∈ ([FileMeta.mk ["f.txt"] false] ++ ([] : List FileMeta)), ∃ ex,
      "Failed applying changes: Copy failed for R/f.txt to M/f.txt: denied"
        = "Failed applying changes: " ++ copyFailMsg "R" "M" m ex) ∧
    do_apply (Node.dir [("old", Node.file "o")]) (Node.dir []) "M" "R"
        [] [FileMeta.mk ["old"] false] [] false none "B.zip"
        (fun _ => true) (fun _ => none)
      = .ok ("", Node.dir [("old", Node.file "o")]) := by
  have hres : do_apply (Node.dir []) (Node.dir [("f.txt", Node.file "c")]) "M" "R"
      [FileMeta.mk ["f.txt"] false] [] [] false none "B.zip"
      (fun _ => false) (fun _ => some "denied")
      = .error ("Failed applying changes: Copy failed for R/f.txt to M/f.txt: denied") := by
    rfl
  have T := (c6_apply_error_asymmetry (Node.dir []) (Node.dir [("f.txt", Node.file "c")])
    "M" "R" [FileMeta.mk ["f.txt"] false] [] [] false none "B.zip"
    (fun _ => false) (fun _ => some "denied")).1 _ hres
  have T2 := (c6_apply_error_asymmetry (Node.dir [("old", Node.file "o")]) (Node.dir [])
    "M" "R" [] [FileMeta.mk ["old"] false] [] false none "B.zip"
    (fun _ => true) (fun _ => none)).2 rfl rfl rfl
  rcases T with ⟨hb, _⟩ | hr
  · exact absurd hb (by decide)
  · refine ⟨hres, hr, ?_⟩
    rw [T2]
    rfl

/-- Witness for C8 at the empty tree. -/
theorem c8_zero_files_trace_witness :
    do_backup_trace (Node.dir []) "Backup.zip" =
      [((0 : ℚ), "Starting backup...", "backup"),
       ((70 : ℚ), "Backup complete. (0/0)", "backup"),
       ((70 : ℚ), "Starting zip creation (0 files)...", "backup"),
       ((100 : ℚ), "Zip backup completed: " ++ "Backup.zip", "backup"),
       ((100 : ℚ), "Backup complete: " ++ "Backup.zip", "backup")] :=
  (c8_zero_files_trace (Node.dir []) "Backup.zip" (by simp [totalFiles, zipList])).2.2

/- ---------------------------------------------------------------------
Scan walk lemmas.
--------------------------------------------------------------------- -/

theorem nodeAt_append (t : Node) (a b : List String) :
    nodeAt t (a ++ b) = match nodeAt t a with
      | some n => nodeAt n b
      | none => none := by
  induction a generalizing t with
  | nil =>
    rw [List.nil_append]
    cases t <;> rfl
  | cons d rest ih =>
    cases t with
    | file c => rfl
    | dir cs =>
      rw [List.cons_append]
      show (match cs.find? (fun x => x.1 == d) with
            | some x => nodeAt x.2 (rest ++ b)
            | none => none) = _
      cases hf : cs.find? (fun x => x.1 == d) with
      | some x =>
        simp only
        rw [ih x.2]
        show _ = (match (match cs.find? (fun x => x.1 == d) with
            | some x => nodeAt x.2 rest
            | none => none) with
          | some n => nodeAt n b
          | none => none)
        rw [hf]
      | none =>
        simp only
        show _ = (match (match cs.find? (fun x => x.1 == d) with
            | some x => nodeAt x.2 rest
            | none => none) with
          | some n => nodeAt n b
          | none => none)
        rw [hf]

theorem find?_key_of_mem {cs : List (String × Node)} (hnd : (cs.map Prod.fst).Nodup)
    {x : String × Node} (hx : x ∈ cs) : cs.find? (fun y => y.1 == x.1) = some x := by
  induction cs with
  | nil => simp at hx
  | cons y rest ih =>
    rw [List.map_cons, List.nodup_cons] at hnd
    obtain ⟨hy, hrest⟩ := hnd
    rcases List.mem_cons.mp hx with rfl | hx2
    · exact List.find?_cons_of_pos rest (by simp)
    · rw [List.find?_cons_of_neg]
      · exact ih hrest hx2
      · simp only [beq_iff_eq]
        intro hcon
        exact hy (hcon ▸ List.mem_map_of_mem Prod.fst hx2)

theorem skipBase_append (relBase : List String) (d : String) (h : relBase ≠ []) :
    skipBase (relBase ++ [d]) = skipBase relBase := by
  cases relBase with
  | nil => exact absurd rfl h
  | cons b rest => rfl

theorem scanE_skip : ∀ (n : Node) (relBase : List String), skipBase relBase = true →
    scanEntries true relBase n = []
  | .file _, _, _ => scanEntries_file true _ _
  | .dir cs, relBase, h => by
    rw [scanEntries_dir, if_pos (by simp [h]), List.nil_append]
    rw [List.flatMap_eq_nil_iff]
    intro x hx
    cases hcx : x.2 with
    | file c => simp
    | dir cs2 =>
      simp only
      have hne : relBase ≠ [] := by
        intro hrb
        rw [hrb] at h
        exact absurd h (by simp [skipBase])
      have hsk : skipBase (relBase ++ [x.1]) = true := by
        rw [skipBase_append relBase x.1 hne]
        exact h
      have := scanE_skip x.2 (relBase ++ [x.1]) hsk
      rw [hcx] at this
      exact this
termination_by n => sizeOf n
decreasing_by
  have h1 := List.sizeOf_lt_of_mem hx
  have h2 : sizeOf x.2 < sizeOf x := by
    obtain ⟨a, b⟩ := x
    simp only [Prod.mk.sizeOf_spec]
    omega
  simp only [Node.dir.sizeOf_spec]
  omega

theorem scanE_false_mem :
    ∀ (n : Node), n.nodupKeys = true → ∀ (relBase p : List String) (w : WEntry),
      ((p, w) ∈ scanEntries false relBase n ↔
        ∃ q nd, q ≠ [] ∧ p = relBase ++ q ∧ nodeAt n q = some nd ∧ w = toW nd)
  | .file c0, _, relBase, p, w => by
    rw [scanEntries_file]
    simp only [List.not_mem_nil, false_iff]
    rintro ⟨q, nd, hq, _, hna, _⟩
    cases q with
    | nil => exact hq rfl
    | cons d rest =>
      have : nodeAt (Node.file c0) (d :: rest) = none := rfl
      rw [this] at hna
      exact absurd hna (by simp)
  | .dir cs, hnd, relBase, p, w => by
    rw [nodupKeys_dir] at hnd
    simp only [Bool.and_eq_true, List.all_eq_true, decide_eq_true_eq] at hnd
    obtain ⟨hkeys, hchild⟩ := hnd
    rw [scanEntries_dir]
    constructor
    · intro hmem
      rcases List.mem_append.mp hmem with hbase | hrec
      · rw [if_neg (by simp)] at hbase
        rcases List.mem_append.mp hbase with hdirs | hfiles
        · rcases List.mem_filterMap.mp hdirs with ⟨x, hx, hfx⟩
          rcases hcx : x.2 with c | cs2
          · have hfx0 : (none : Option (List String × WEntry)) = some (p, w) := by
              rw [hcx] at hfx
              exact hfx
            exact absurd hfx0 (by simp)
          · have hfx0 : (if (false && badDirName x.1) = true then none
                else some (relBase ++ [x.1], WEntry.dirE)) = some (p, w) := by
              rw [hcx] at hfx
              exact hfx
            rw [if_neg (by simp)] at hfx0
            injection hfx0 with hfx2
            rcases Prod.mk.injEq _ _ _ _ ▸ hfx2 with ⟨rfl, rfl⟩
            refine ⟨[x.1], x.2, by simp, rfl, ?_, by simp [hcx, toW]⟩
            have hunf : nodeAt (Node.dir cs) [x.1]
                = (match cs.find? (fun y => y.1 == x.1) with
                   | some y => nodeAt y.2 []
                   | none => none) := rfl
            rw [hunf, find?_key_of_mem hkeys hx]
            show nodeAt x.2 [] = some x.2
            rw [hcx]
            rfl
        · rcases List.mem_filterMap.mp hfiles with ⟨x, hx, hfx⟩
          rcases hcx : x.2 with c | cs2
          · have hfx0 : (if (false && badFileName x.1) = true then none
                else some (relBase ++ [x.1], WEntry.fileE c)) = some (p, w) := by
              rw [hcx] at hfx
              exact hfx
            rw [if_neg (by simp)] at hfx0
            injection hfx0 with hfx2
            rcases Prod.mk.injEq _ _ _ _ ▸ hfx2 with ⟨rfl, rfl⟩
            refine ⟨[x.1], x.2, by simp, rfl, ?_, by simp [hcx, toW]⟩
            have hunf : nodeAt (Node.dir cs) [x.1]
                = (match cs.find? (fun y => y.1 == x.1) with
                   | some y => nodeAt y.2 []
                   | none => none) := rfl
            rw [hunf, find?_key_of_mem hkeys hx]
            show nodeAt x.2 [] = some x.2
            rw [hcx]
            rfl
          · have hfx0 : (none : Option (List String × WEntry)) = some (p, w) := by
              rw [hcx] at hfx
              exact hfx
            exact absurd hfx0 (by simp)
      · rcases List.mem_flatMap.mp hrec with ⟨x, hx, hmem2⟩
        have hch := hchild x hx
        rcases hcx : x.2 with c | cs2
        · have hmem3 : (p, w) ∈ ([] : List (List String × WEntry)) := by
            rw [hcx] at hmem2
            exact hmem2
          exact absurd hmem3 (by simp)
        · have hmem3 : (p, w) ∈ scanEntries false (relBase ++ [x.1]) x.2 := by
            rw [hcx] at hmem2 ⊢
            exact hmem2
          rcases (scanE_false_mem x.2 hch (relBase ++ [x.1]) p w).mp hmem3
            with ⟨q2, nd, hq2, hp, hna, hw⟩
          refine ⟨x.1 :: q2, nd, by simp, ?_, ?_, hw⟩
          · rw [hp, List.append_assoc, List.singleton_append]
          · have hunf : nodeAt (Node.dir cs) (x.1 :: q2)
                = (match cs.find? (fun y => y.1 == x.1) with
                   | some y => nodeAt y.2 q2
                   | none => none) := rfl
            rw [hunf, find?_key_of_mem hkeys hx]
            exact hna
    · rintro ⟨q, nd, hq, rfl, hna, rfl⟩
      cases q with
      | nil => exact absurd rfl hq
      | cons d q2 =>
        have hunf : nodeAt (Node.dir cs) (d :: q2)
            = (match cs.find? (fun y => y.1 == d) with
               | some y => nodeAt y.2 q2
               | none => none) := rfl
        rw [hunf] at hna
        cases hf : cs.find? (fun y => y.1 == d) with
        | none =>
          rw [hf] at hna
          exact absurd hna (by simp)
        | some x =>
          rw [hf] at hna
          have hxmem : x ∈ cs := List.mem_of_find?_eq_some hf
          have hxd : x.1 = d := by
            have := List.find?_some hf
            simpa [beq_iff_eq] using this
          cases q2 with
          | nil =>
            have hna2 : nodeAt x.2 [] = some nd := hna
            apply List.mem_append.mpr
            left
            rw [if_neg (by simp)]
            apply List.mem_append.mpr
            rcases hcx : x.2 with c | cs2
            · rw [hcx] at hna2
              injection hna2 with h4
              subst h4
              right
              apply List.mem_filterMap.mpr
              refine ⟨x, hxmem, ?_⟩
              rw [hcx]
              show (if (false && badFileName x.1) = true then none
                    else some (relBase ++ [x.1], WEntry.fileE c))
                  = some (relBase ++ [d], toW (Node.file c))
              rw [if_neg (by simp), hxd]
              rfl
            · rw [hcx] at hna2
              injection hna2 with h4
              subst h4
              left
              apply List.mem_filterMap.mpr
              refine ⟨x, hxmem, ?_⟩
              rw [hcx]
              show (if (false && badDirName x.1) = true then none
                    else some (relBase ++ [x.1], WEntry.dirE))
                  = some (relBase ++ [d], toW (Node.dir cs2))
              rw [if_neg (by simp), hxd]
              rfl
          | cons e q3 =>
            have hna2 : nodeAt x.2 (e :: q3) = some nd := hna
            have hch : x.2.nodupKeys = true := hchild x hxmem
            have hp : relBase ++ (d :: e :: q3) = (relBase ++ [x.1]) ++ (e :: q3) := by
              rw [hxd, List.append_assoc, List.singleton_append]
            have hmemsub : (relBase ++ (d :: e :: q3), toW nd)
                ∈ scanEntries false (relBase ++ [x.1]) x.2 :=
              (scanE_false_mem x.2 hch (relBase ++ [x.1]) _ _).mpr
                ⟨e :: q3, nd, by simp, hp, hna2, rfl⟩
            apply List.mem_append.mpr
            right
            apply List.mem_flatMap.mpr
            refine ⟨x, hxmem, ?_⟩
            rcases hcx : x.2 with c | cs2
            · rw [hcx, scanEntries_file] at hmemsub
              exact absurd hmemsub (by simp)
            · rw [hcx] at hmemsub
              exact hmemsub
termination_by n => sizeOf n
decreasing_by
  all_goals {
    first
    | { have h1 := List.sizeOf_lt_of_mem hx
        have h2 : sizeOf x.2 < sizeOf x := by
          obtain ⟨a, b⟩ := x
          simp only [Prod.mk.sizeOf_spec]
          omega
        simp only [Node.dir.sizeOf_spec]
        omega }
    | { have h1 := List.sizeOf_lt_of_mem hxmem
        have h2 : sizeOf x.2 < sizeOf x := by
          obtain ⟨a, b⟩ := x
          simp only [Prod.mk.sizeOf_spec]
          omega
        simp only [Node.dir.sizeOf_spec]
        omega } }

theorem scanE_true_entry_shape :
    ∀ (n : Node) (relBase p : List String) (w : WEntry),
      (p, w) ∈ scanEntries true relBase n →
      ∃ base d, p = base ++ [d] ∧ skipBase base = false ∧
        (w = WEntry.dirE → badDirName d = false) ∧
        (∀ c, w = WEntry.fileE c → badFileName d = false)
  | .file _, _, _, _, hmem => by
    rw [scanEntries_file] at hmem
    exact absurd hmem (by simp)
  | .dir cs, relBase, p, w, hmem => by
    rw [scanEntries_dir] at hmem
    rcases List.mem_append.mp hmem with hbase | hrec
    · by_cases hsk : skipBase relBase = true
      · rw [if_pos (by simp [hsk])] at hbase
        exact absurd hbase (by simp)
      · rw [if_neg (by simp [hsk])] at hbase
        rcases List.mem_append.mp hbase with hdirs | hfiles
        · rcases List.mem_filterMap.mp hdirs with ⟨x, _, hfx⟩
          rcases hcx : x.2 with c | cs2 <;> rw [hcx] at hfx
          · exact absurd hfx (by simp)
          · simp only at hfx
            split_ifs at hfx with hbad
            · injection hfx with hfx2
              rcases Prod.mk.injEq _ _ _ _ ▸ hfx2 with ⟨rfl, rfl⟩
              refine ⟨relBase, x.1, rfl, ?_, ?_, ?_⟩
              · simpa using hsk
              · intro _
                simpa using hbad
              · intro c hc
                exact WEntry.noConfusion hc
        · rcases List.mem_filterMap.mp hfiles with ⟨x, _, hfx⟩
          rcases hcx : x.2 with c | cs2 <;> rw [hcx] at hfx
          · simp only at hfx
            split_ifs at hfx with hbad
            · injection hfx with hfx2
              rcases Prod.mk.injEq _ _ _ _ ▸ hfx2 with ⟨rfl, rfl⟩
              refine ⟨relBase, x.1, rfl, ?_, ?_, ?_⟩
              · simpa using hsk
              · intro hd
                exact WEntry.noConfusion hd
              · intro c2 hc
                simpa using hbad
          · exact absurd hfx (by simp)
    · rcases List.mem_flatMap.mp hrec with ⟨x, hx, hmem2⟩
      rcases hcx : x.2 with c | cs2 <;> rw [hcx] at hmem2
      · exact absurd hmem2 (by simp)
      · have := scanE_true_entry_shape x.2 (relBase ++ [x.1]) p w (by rw [hcx]; exact hmem2)
        exact this
termination_by n => sizeOf n
decreasing_by
  have h1 := List.sizeOf_lt_of_mem hx
  have h2 : sizeOf x.2 < sizeOf x := by
    obtain ⟨a, b⟩ := x
    simp only [Prod.mk.sizeOf_spec]
    omega
  simp only [Node.dir.sizeOf_spec]
  omega

/- ---------------------------------------------------------------------
Claim C9.
--------------------------------------------------------------------- -/

/-- C9, counterexample to the claim as stated: with `filterGarbage` true the
scan still produces entries for paths *under* a `__pycache__` directory
(`__pycache__/m.pyc`) and under a version-control metadata directory that is
not at the top level (`sub/.git/config`): the walk filters the directory
entries themselves but keeps descending. -/
theorem c9_counterexample :
    (["__pycache__", "m.pyc"], FMeta.mk false "H") ∈
      scan_dir_with_hashes (fun _ => "H")
        (.dir [("__pycache__", .dir [("m.pyc", .file "z")])]) true ∧
    (["sub", ".git", "config"], FMeta.mk false "H") ∈
      scan_dir_with_hashes (fun _ => "H")
        (.dir [("sub", .dir [(".git", .dir [("config", .file "c")])])]) true := by
  constructor
  · have h : scan_dir_with_hashes (fun _ => "H")
        (.dir [("__pycache__", .dir [("m.pyc", .file "z")])]) true
        = [(["__pycache__", "m.pyc"], FMeta.mk false "H")] := by
      simp [scan_dir_with_hashes, metaOfEntry]
      decide
    rw [h]
    exact List.mem_singleton.mpr rfl
  · have h : scan_dir_with_hashes (fun _ => "H")
        (.dir [("sub", .dir [(".git", .dir [("config", .file "c")])])]) true
        = [(["sub"], FMeta.mk true ""), (["sub", ".git", "config"], FMeta.mk false "H")] := by
      simp [scan_dir_with_hashes, metaOfEntry]
      decide
    rw [h]
    simp

/-- C9 (amended): for every well-formed tree, each entry surviving the
`filterGarbage` scan decomposes as base ++ [name] where the base's
slash-joined string does not start with `.git` (so nothing under a top-level
`.git*` directory survives, though deeper `.git` directories keep their
contents), the name of a directory entry is not `.git` or `__pycache__` and
does not end in `.tmp` (case-insensitively), and the name of a file entry is
not `.gitignore` and does not end in `.tmp` or `.log` (case-insensitively);
entries under a `__pycache__` directory are NOT excluded.  A scan with
`filterGarbage` false excludes nothing: it holds exactly one entry per node
of the tree, with the directory flag and content hash of that node. -/
theorem c9_filter_characterization (hashF : String → String) (t : Node) (hw : t.wf = true) :
    (∀ p m, (p, m) ∈ scan_dir_with_hashes hashF t true →
      ∃ base d, p = base ++ [d] ∧ skipBase base = false ∧
        (m.is_dir = true → badDirName d = false) ∧
        (m.is_dir = false → badFileName d = false)) ∧
    (∀ p m, (p, m) ∈ scan_dir_with_hashes hashF t false ↔
      p ≠ [] ∧ ∃ nd, nodeAt t p = some nd ∧ m = metaOfEntry hashF (toW nd)) := by
  constructor
  · intro p m hmem
    rw [scan_dir_with_hashes] at hmem
    rcases List.mem_map.mp hmem with ⟨x, hx, hxm⟩
    rcases Prod.mk.injEq _ _ _ _ ▸ hxm with ⟨rfl, rfl⟩
    rcases scanE_true_entry_shape t [] x.1 x.2 (by rw [← Prod.mk.eta (p := x)] at hx; exact hx)
      with ⟨base, d, hdec, hskip, hdir, hfile⟩
    refine ⟨base, d, hdec, hskip, ?_, ?_⟩
    · intro hmdir
      apply hdir
      cases hw2 : x.2 with
      | dirE => rfl
      | fileE c =>
        rw [hw2] at hmdir
        exact absurd hmdir (by simp [metaOfEntry])
    · intro hmfile
      cases hw2 : x.2 with
      | dirE =>
        rw [hw2] at hmfile
        exact absurd hmfile (by simp [metaOfEntry])
      | fileE c => exact hfile c hw2
  · intro p m
    rw [scan_dir_with_hashes]
    constructor
    · intro hmem
      rcases List.mem_map.mp hmem with ⟨x, hx, hxm⟩
      rcases Prod.mk.injEq _ _ _ _ ▸ hxm with ⟨rfl, rfl⟩
      rcases (scanE_false_mem t (nodupKeys_of_wf t hw) [] x.1 x.2).mp
        (by rw [← Prod.mk.eta (p := x)] at hx; exact hx) with ⟨q, nd, hq, hpq, hna, hwn⟩
      rw [List.nil_append] at hpq
      subst hpq
      exact ⟨hq, nd, hna, by rw [hwn]⟩
    · rintro ⟨hp, nd, hna, rfl⟩
      apply List.mem_map.mpr
      refine ⟨(p, toW nd), ?_, rfl⟩
      exact (scanE_false_mem t (nodupKeys_of_wf t hw) [] p (toW nd)).mpr
        ⟨p, nd, hp, (List.nil_append p).symm, hna, rfl⟩

/-- Witness for C9 at a tree holding `Mods/a.txt` and a filtered file
`junk.tmp`. -/
theorem c9_filter_characterization_witness :
    ((["Mods", "a.txt"], FMeta.mk false "A") ∈
      scan_dir_with_hashes (fun c => c)
        (.dir [("Mods", .dir [("a.txt", .file "A")]), ("junk.tmp", .file "J")]) false) ∧
    (∃ base d, (["Mods", "a.txt"] : List String) = base ++ [d] ∧ skipBase base = false ∧
      ((FMeta.mk false "A").is_dir = true → badDirName d = false) ∧
      ((FMeta.mk false "A").is_dir = false → badFileName d = false)) := by
  have T := c9_filter_characterization (fun c => c)
    (.dir [("Mods", .dir [("a.txt", .file "A")]), ("junk.tmp", .file "J")])
    (by simp)
  have hmemfalse : (["Mods", "a.txt"], FMeta.mk false "A") ∈
      scan_dir_with_hashes (fun c => c)
        (.dir [("Mods", .dir [("a.txt", .file "A")]), ("junk.tmp", .file "J")]) false :=
    (T.2 ["Mods", "a.txt"] (FMeta.mk false "A")).mpr
      ⟨by simp, .file "A", rfl, rfl⟩
  have hmemtrue : (["Mods", "a.txt"], FMeta.mk false "A") ∈
      scan_dir_with_hashes (fun c => c)
        (.dir [("Mods", .dir [("a.txt", .file "A")]), ("junk.tmp", .file "J")]) true := by
    have h : scan_dir_with_hashes (fun c => c)
        (.dir [("Mods", .dir [("a.txt", .file "A")]), ("junk.tmp", .file "J")]) true
        = [(["Mods"], FMeta.mk true ""), (["Mods", "a.txt"], FMeta.mk false "A")] := by
      simp [scan_dir_with_hashes, metaOfEntry]
      decide
    rw [h]
    simp
  exact ⟨hmemfalse, T.1 ["Mods", "a.txt"] (FMeta.mk false "A") hmemtrue⟩

/- ---------------------------------------------------------------------
Extraction lemmas (claim C4).
--------------------------------------------------------------------- -/

theorem find?_setChild_self (cs : List (String × Node)) (d : String) (n : Node) :
    (setChild cs d n).find? (fun y => y.1 == d) = some (d, n) := by
  induction cs with
  | nil =>
    rw [setChild]
    exact List.find?_cons_of_pos _ (by simp)
  | cons x rest ih =>
    rw [setChild]
    by_cases hx : x.1 = d
    · rw [if_pos hx]
      exact List.find?_cons_of_pos _ (by simp)
    · rw [if_neg hx]
      rw [List.find?_cons_of_neg _ (by simpa using hx)]
      exact ih

theorem find?_setChild_other (cs : List (String × Node)) (d e : String) (n : Node)
    (hne : e ≠ d) :
    (setChild cs d n).find? (fun y => y.1 == e) = cs.find? (fun y => y.1 == e) := by
  induction cs with
  | nil =>
    rw [setChild]
    rw [List.find?_cons_of_neg _ (by simp [hne.symm])]
  | cons x rest ih =>
    rw [setChild]
    by_cases hx : x.1 = d
    · rw [if_pos hx]
      rw [List.find?_cons_of_neg _ (by simp [hne.symm]),
        List.find?_cons_of_neg _ (by simp [hx, hne.symm])]
    · rw [if_neg hx]
      by_cases hxe : x.1 = e
      · rw [List.find?_cons_of_pos _ (by simpa using hxe),
          List.find?_cons_of_pos _ (by simpa using hxe)]
      · rw [List.find?_cons_of_neg _ (by simpa using hxe),
          List.find?_cons_of_neg _ (by simpa using hxe)]
        exact ih

theorem mem_setChild {cs : List (String × Node)} {d : String} {n : Node} {y : String × Node}
    (hy : y ∈ setChild cs d n) : y = (d, n) ∨ y ∈ cs := by
  induction cs with
  | nil =>
    rw [setChild] at hy
    rcases List.mem_singleton.mp hy with rfl
    exact Or.inl rfl
  | cons x rest ih =>
    rw [setChild] at hy
    by_cases hx : x.1 = d
    · rw [if_pos hx] at hy
      rcases List.mem_cons.mp hy with rfl | hy2
      · exact Or.inl rfl
      · exact Or.inr (List.mem_cons_of_mem x hy2)
    · rw [if_neg hx] at hy
      rcases List.mem_cons.mp hy with rfl | hy2
      · exact Or.inr (List.mem_cons_self _ _)
      · rcases ih hy2 with h | h
        · exact Or.inl h
        · exact Or.inr (List.mem_cons_of_mem x h)

theorem keys_setChild_sub {cs : List (String × Node)} {d : String} {n : Node} {e : String}
    (he : e ∈ (setChild cs d n).map Prod.fst) : e = d ∨ e ∈ cs.map Prod.fst := by
  rcases List.mem_map.mp he with ⟨y, hy, rfl⟩
  rcases mem_setChild hy with rfl | h
  · exact Or.inl rfl
  · exact Or.inr (List.mem_map_of_mem Prod.fst h)

theorem nodup_keys_setChild {cs : List (String × Node)} (d : String) (n : Node)
    (hnd : (cs.map Prod.fst).Nodup) : ((setChild cs d n).map Prod.fst).Nodup := by
  induction cs with
  | nil =>
    rw [setChild]
    simp
  | cons x rest ih =>
    rw [List.map_cons, List.nodup_cons] at hnd
    obtain ⟨hx, hrest⟩ := hnd
    rw [setChild]
    by_cases hxd : x.1 = d
    · rw [if_pos hxd, List.map_cons, List.nodup_cons]
      exact ⟨by rw [← hxd]; exact hx, hrest⟩
    · rw [if_neg hxd, List.map_cons, List.nodup_cons]
      refine ⟨?_, ih hrest⟩
      intro hmem
      rcases keys_setChild_sub hmem with rfl | h
      · exact hxd rfl
      · exact hx h

theorem nodupKeys_insertFile :
    ∀ (t : Node) (q : List String) (c : String), t.nodupKeys = true →
      (insertFile t q c).nodupKeys = true
  | t, [], _, ht => by cases t <;> exact ht
  | .file c0, _ :: _, _, ht => ht
  | .dir cs, [d], c, ht => by
    show (Node.dir (setChild cs d (.file c))).nodupKeys = true
    rw [nodupKeys_dir] at ht ⊢
    simp only [Bool.and_eq_true, List.all_eq_true, decide_eq_true_eq] at ht ⊢
    obtain ⟨hkeys, hchild⟩ := ht
    refine ⟨nodup_keys_setChild d _ hkeys, ?_⟩
    intro y hy
    rcases mem_setChild hy with rfl | h
    · exact nodupKeys_file c
    · exact hchild y h
  | .dir cs, d :: e :: q3, c, ht => by
    show (Node.dir (setChild cs d (insertFile
      (match cs.find? (fun x => x.1 == d) with
       | some x => x.2
       | none => Node.dir []) (e :: q3) c))).nodupKeys = true
    rw [nodupKeys_dir] at ht ⊢
    simp only [Bool.and_eq_true, List.all_eq_true, decide_eq_true_eq] at ht ⊢
    obtain ⟨hkeys, hchild⟩ := ht
    refine ⟨nodup_keys_setChild d _ hkeys, ?_⟩
    intro y hy
    rcases mem_setChild hy with rfl | h
    · simp only
      apply nodupKeys_insertFile
      cases hf : cs.find? (fun x => x.1 == d) with
      | some x =>
        simp only [hf]
        exact hchild x (List.mem_of_find?_eq_some hf)
      | none =>
        simp only [hf]
        rw [nodupKeys_dir]
        simp
    · exact hchild y h

theorem nodeAt_dir_cons (cs : List (String × Node)) (d : String) (rest : List String) :
    nodeAt (Node.dir cs) (d :: rest)
      = (match cs.find? (fun y => y.1 == d) with
         | some y => nodeAt y.2 rest
         | none => none) := rfl

theorem nodeAt_dir_cons_some (cs : List (String × Node)) (d : String) (x : String × Node)
    (rest : List String) (hf : cs.find? (fun y => y.1 == d) = some x) :
    nodeAt (Node.dir cs) (d :: rest) = nodeAt x.2 rest := by
  rw [nodeAt_dir_cons, hf]

theorem nodeAt_dir_cons_none (cs : List (String × Node)) (d : String)
    (rest : List String) (hf : cs.find? (fun y => y.1 == d) = none) :
    nodeAt (Node.dir cs) (d :: rest) = none := by
  rw [nodeAt_dir_cons, hf]

theorem nodeAt_self_nil : ∀ (n : Node), nodeAt n [] = some n
  | .file _ => rfl
  | .dir _ => rfl

theorem nodeAt_file_prefix {t : Node} {q1 q2 : List String} {c : String}
    (h1 : nodeAt t q1 = some (.file c)) (hpre : q1 <+: q2) (hne : q1 ≠ q2) :
    nodeAt t q2 = none := by
  rcases hpre with ⟨s, rfl⟩
  cases s with
  | nil => exact absurd (List.append_nil q1).symm hne
  | cons e s2 =>
    rw [nodeAt_append, h1]
    rfl

theorem nodeAt_insertFile :
    ∀ (q : List String) (c : String) (t : Node), t.isDir = true →
      (∀ q2 nd, q2 <+: q → q2 ≠ q → q2 ≠ [] → nodeAt t q2 = some nd → nd.isDir = true) →
      q ≠ [] →
      (nodeAt (insertFile t q c) q = some (.file c)) ∧
      (∀ r, r <+: q → r ≠ q → ∃ cs2, nodeAt (insertFile t q c) r = some (.dir cs2)) ∧
      (∀ r, ¬ r <+: q → ¬ q <+: r → nodeAt (insertFile t q c) r = nodeAt t r) ∧
      (∀ r, q <+: r → r ≠ q → nodeAt (insertFile t q c) r = none)
  | [], _, _, _, _, hq => absurd rfl hq
  | [d], c, .file _, ht, _, _ => by simp [Node.isDir] at ht
  | [d], c, .dir cs, _, _, _ => by
    have hins : insertFile (Node.dir cs) [d] c = Node.dir (setChild cs d (.file c)) := rfl
    rw [hins]
    refine ⟨?_, ?_, ?_, ?_⟩
    · rw [nodeAt_dir_cons_some (setChild cs d (.file c)) d (d, .file c) []
        (find?_setChild_self cs d (.file c))]
      exact nodeAt_self_nil _
    · intro r hpre hne
      have hr : r = [] := by
        cases r with
        | nil => rfl
        | cons f r2 =>
          rcases List.cons_prefix_cons.mp hpre with ⟨rfl, hpre2⟩
          rw [List.prefix_nil] at hpre2
          exact absurd (by rw [hpre2]) hne
      subst hr
      exact ⟨setChild cs d (.file c), rfl⟩
    · intro r hnp hnq
      cases r with
      | nil => exact absurd List.nil_prefix hnp
      | cons f r2 =>
        by_cases hfd : f = d
        · subst hfd
          cases r2 with
          | nil => exact absurd (List.prefix_refl _) hnp
          | cons g r3 =>
            exact absurd (List.cons_prefix_cons.mpr ⟨rfl, List.nil_prefix⟩) hnq
        · rw [nodeAt_dir_cons, find?_setChild_other cs d f (.file c) hfd, ← nodeAt_dir_cons]
    · intro r hrpre hrne
      cases r with
      | nil => exact absurd (List.prefix_nil.mp hrpre) (by simp)
      | cons f r2 =>
        obtain ⟨hfd, _⟩ := List.cons_prefix_cons.mp hrpre
        rw [← hfd] at hrne ⊢
        cases r2 with
        | nil => exact absurd rfl hrne
        | cons g r3 =>
          rw [nodeAt_dir_cons_some (setChild cs d (.file c)) d (d, .file c) (g :: r3)
            (find?_setChild_self cs d (.file c))]
          rfl
  | d :: e :: q3, c, .file _, ht, _, _ => by simp [Node.isDir] at ht
  | d :: e :: q3, c, .dir cs, _, hpre, _ => by
    have hins : insertFile (Node.dir cs) (d :: e :: q3) c
        = Node.dir (setChild cs d (insertFile
            (match cs.find? (fun y => y.1 == d) with
             | some x => x.2
             | none => Node.dir []) (e :: q3) c)) := rfl
    have hchdir : (match cs.find? (fun y : String × Node => y.1 == d) with
        | some x => x.2
        | none => Node.dir []).isDir = true := by
      cases hf : cs.find? (fun y => y.1 == d) with
      | some x =>
        show x.2.isDir = true
        apply hpre [d] x.2 (List.cons_prefix_cons.mpr ⟨rfl, List.nil_prefix⟩)
          (by simp) (by simp)
        rw [nodeAt_dir_cons_some cs d x [] hf]
        exact nodeAt_self_nil x.2
      | none => rfl
    have hchpre : ∀ q2 nd, q2 <+: (e :: q3) → q2 ≠ (e :: q3) → q2 ≠ [] →
        nodeAt (match cs.find? (fun y : String × Node => y.1 == d) with
          | some x => x.2
          | none => Node.dir []) q2 = some nd → nd.isDir = true := by
      intro q2 nd hq2pre hq2ne hq2nil hna
      cases hf : cs.find? (fun y => y.1 == d) with
      | some x =>
        rw [hf] at hna
        have hna2 : nodeAt x.2 q2 = some nd := hna
        apply hpre (d :: q2) nd (List.cons_prefix_cons.mpr ⟨rfl, hq2pre⟩)
          (by intro hcon; injection hcon with _ h2; exact hq2ne h2) (by simp)
        rw [nodeAt_dir_cons_some cs d x q2 hf]
        exact hna2
      | none =>
        rw [hf] at hna
        have hna2 : nodeAt (Node.dir []) q2 = some nd := hna
        cases q2 with
        | nil => exact absurd rfl hq2nil
        | cons g r3 =>
          rw [nodeAt_dir_cons_none [] g r3 (by rfl)] at hna2
          exact absurd hna2 (by simp)
    have IH := nodeAt_insertFile (e :: q3) c
      (match cs.find? (fun y : String × Node => y.1 == d) with
       | some x => x.2
       | none => Node.dir []) hchdir hchpre (by simp)
    rw [hins]
    refine ⟨?_, ?_, ?_, ?_⟩
    · rw [nodeAt_dir_cons_some _ d _ (e :: q3) (find?_setChild_self cs d _)]
      exact IH.1
    · intro r hrpre hrne
      cases r with
      | nil => exact ⟨_, rfl⟩
      | cons f r2 =>
        obtain ⟨hfd, hpre2⟩ := List.cons_prefix_cons.mp hrpre
        rw [hfd] at hrne ⊢
        rw [nodeAt_dir_cons_some _ d _ r2 (find?_setChild_self cs d _)]
        exact IH.2.1 r2 hpre2 (by intro hcon; exact hrne (by rw [hcon]))
    · intro r hnp hnq
      cases r with
      | nil => exact absurd List.nil_prefix hnp
      | cons f r2 =>
        by_cases hfd : f = d
        · rw [hfd] at hnp hnq ⊢
          have hnp2 : ¬ r2 <+: (e :: q3) := by
            intro hcon
            exact hnp (List.cons_prefix_cons.mpr ⟨rfl, hcon⟩)
          have hnq2 : ¬ (e :: q3) <+: r2 := by
            intro hcon
            exact hnq (List.cons_prefix_cons.mpr ⟨rfl, hcon⟩)
          rw [nodeAt_dir_cons_some _ d _ r2 (find?_setChild_self cs d _)]
          rw [IH.2.2.1 r2 hnp2 hnq2]
          cases hf : cs.find? (fun y => y.1 == d) with
          | some x =>
            show nodeAt x.2 r2 = _
            rw [nodeAt_dir_cons_some cs d x r2 hf]
          | none =>
            show nodeAt (Node.dir []) r2 = _
            rw [nodeAt_dir_cons_none cs d r2 hf]
            cases r2 with
            | nil => exact absurd (List.cons_prefix_cons.mpr ⟨rfl, List.nil_prefix⟩) hnp
            | cons g r3 =>
              rw [nodeAt_dir_cons_none [] g r3 (by rfl)]
        · rw [nodeAt_dir_cons, find?_setChild_other cs d f _ hfd, ← nodeAt_dir_cons]
    · intro r hrpre hrne
      cases r with
      | nil => exact absurd (List.prefix_nil.mp hrpre) (by simp)
      | cons f r2 =>
        obtain ⟨hfd, hpre2⟩ := List.cons_prefix_cons.mp hrpre
        rw [← hfd] at hrne ⊢
        rw [nodeAt_dir_cons_some _ d _ r2 (find?_setChild_self cs d _)]
        exact IH.2.2.2 r2 hpre2 (by intro hcon; exact hrne (by rw [hcon]))


/- ---------------------------------------------------------------------
Round-trip lemmas (claim C4): what the full extraction of the backup zip
reproduces.
--------------------------------------------------------------------- -/

theorem zipList_mem (t : Node) (hnd : t.nodupKeys = true) (q : List String) (c : String) :
    (q, c) ∈ zipList t ↔ q ≠ [] ∧ nodeAt t q = some (.file c) := by
  rw [zipList]
  constructor
  · intro h
    rcases List.mem_filterMap.mp h with ⟨x, hx, hfx⟩
    cases hw2 : x.2 with
    | fileE c2 =>
      rw [hw2] at hfx
      injection hfx with h2
      rcases Prod.mk.injEq _ _ _ _ ▸ h2 with ⟨rfl, rfl⟩
      rcases (scanE_false_mem t hnd [] x.1 x.2).mp
        (by rw [← Prod.mk.eta (p := x)] at hx; exact hx) with ⟨q2, nd, hq2, hpq, hna, hwn⟩
      rw [List.nil_append] at hpq
      subst hpq
      cases nd with
      | file c3 =>
        rw [hw2] at hwn
        have hc : c2 = c3 := by injection hwn
        refine ⟨hq2, ?_⟩
        rw [hc]
        exact hna
      | dir cs3 =>
        rw [hw2] at hwn
        exact absurd hwn (by simp [toW])
    | dirE =>
      rw [hw2] at hfx
      have hfx2 : (none : Option (List String × String)) = some (q, c) := hfx
      exact Option.noConfusion hfx2
  · rintro ⟨hq, hna⟩
    apply List.mem_filterMap.mpr
    refine ⟨(q, WEntry.fileE c), ?_, rfl⟩
    exact (scanE_false_mem t hnd [] q (WEntry.fileE c)).mpr
      ⟨q, .file c, hq, (List.nil_append q).symm, hna, rfl⟩

theorem extract_fold_inv (rest : List (List String × String)) :
    ∀ (done : List (List String × String)) (t : Node),
      (∀ x, x ∈ done ++ rest → x.1 ≠ []) →
      (∀ x y, x ∈ done ++ rest → y ∈ done ++ rest → x.1 <+: y.1 → x.1 = y.1) →
      (∀ x y, x ∈ done ++ rest → y ∈ done ++ rest → x.1 = y.1 → x.2 = y.2) →
      (∀ r c, nodeAt t r = some (.file c) ↔ (r, c) ∈ done) →
      (∀ r, (∃ cs2, nodeAt t r = some (.dir cs2)) ↔
        (r = [] ∨ ∃ y, y ∈ done ∧ r <+: y.1 ∧ r ≠ y.1)) →
      (∀ r c, nodeAt (rest.foldl (fun t x => insertFile t x.1 x.2) t) r = some (.file c)
          ↔ (r, c) ∈ done ++ rest) ∧
      (∀ r, (∃ cs2, nodeAt (rest.foldl (fun t x => insertFile t x.1 x.2) t) r
          = some (.dir cs2)) ↔
        (r = [] ∨ ∃ y, y ∈ done ++ rest ∧ r <+: y.1 ∧ r ≠ y.1)) := by
  induction rest with
  | nil =>
    intro done t _ _ _ hfile hdir
    simp only [List.foldl_nil, List.append_nil]
    exact ⟨hfile, hdir⟩
  | cons z rest ih =>
    intro done t hne hanti hcons hfile hdir
    have hzmem : z ∈ done ++ z :: rest :=
      List.mem_append.mpr (Or.inr (List.mem_cons_self z rest))
    have hqne : z.1 ≠ [] := hne z hzmem
    have ht : t.isDir = true := by
      rcases (hdir []).mpr (Or.inl rfl) with ⟨cs2, hcs2⟩
      rw [nodeAt_self_nil t] at hcs2
      injection hcs2 with h2
      rw [h2]
      rfl
    have hpredirs : ∀ q2 nd, q2 <+: z.1 → q2 ≠ z.1 → q2 ≠ [] →
        nodeAt t q2 = some nd → nd.isDir = true := by
      intro q2 nd hq2pre hq2ne _ hna
      cases nd with
      | file c2 =>
        have hmem0 : (q2, c2) ∈ done := (hfile q2 c2).mp hna
        have hmem2 : ((q2, c2) : List String × String) ∈ done ++ z :: rest :=
          List.mem_append.mpr (Or.inl hmem0)
        exact absurd (hanti (q2, c2) z hmem2 hzmem hq2pre) hq2ne
      | dir cs2 => rfl
    have I1 := nodeAt_insertFile z.1 z.2 t ht hpredirs hqne
    have hfile2 : ∀ r c, nodeAt (insertFile t z.1 z.2) r = some (.file c) ↔
        (r, c) ∈ done ++ [z] := by
      intro r c
      by_cases hr : r = z.1
      · subst hr
        rw [I1.1]
        constructor
        · intro h
          injection h with h2
          injection h2 with h3
          rw [← h3]
          refine List.mem_append.mpr (Or.inr ?_)
          rw [Prod.mk.eta]
          exact List.mem_singleton.mpr rfl
        · intro h
          rcases List.mem_append.mp h with hdone | hz
          · have hc : c = z.2 := hcons (z.1, c) z (List.mem_append.mpr (Or.inl hdone)) hzmem rfl
            rw [hc]
          · have h2 : ((z.1, c) : List String × String) = z := List.mem_singleton.mp hz
            have hc : c = z.2 := congrArg Prod.snd h2
            rw [hc]
      · by_cases hpq : r <+: z.1
        · rcases I1.2.1 r hpq hr with ⟨cs2, hcs2⟩
          rw [hcs2]
          constructor
          · intro h
            exact absurd h (by simp)
          · intro h
            exfalso
            rcases List.mem_append.mp h with hdone | hz
            · exact hr (hanti (r, c) z (List.mem_append.mpr (Or.inl hdone)) hzmem hpq)
            · exact hr (congrArg Prod.fst (List.mem_singleton.mp hz))
        · by_cases hqr : z.1 <+: r
          · rw [I1.2.2.2 r hqr hr]
            constructor
            · intro h
              exact Option.noConfusion h
            · intro h
              exfalso
              rcases List.mem_append.mp h with hdone | hz
              · have h2 := hanti z (r, c) hzmem (List.mem_append.mpr (Or.inl hdone)) hqr
                exact hr h2.symm
              · exact hr (congrArg Prod.fst (List.mem_singleton.mp hz))
          · rw [I1.2.2.1 r hpq hqr, hfile r c]
            constructor
            · intro h
              exact List.mem_append.mpr (Or.inl h)
            · intro h
              rcases List.mem_append.mp h with hdone | hz
              · exact hdone
              · exact absurd (congrArg Prod.fst (List.mem_singleton.mp hz)) hr
    have hdir2 : ∀ r, (∃ cs2, nodeAt (insertFile t z.1 z.2) r = some (.dir cs2)) ↔
        (r = [] ∨ ∃ y, y ∈ done ++ [z] ∧ r <+: y.1 ∧ r ≠ y.1) := by
      intro r
      by_cases hr : r = z.1
      · subst hr
        constructor
        · rintro ⟨cs2, hcs2⟩
          rw [I1.1] at hcs2
          exact absurd hcs2 (by simp)
        · intro h
          exfalso
          rcases h with hnil | ⟨y, hy, hpre, hne2⟩
          · exact hqne hnil
          · rcases List.mem_append.mp hy with hdone | hz2
            · exact hne2 (hanti z y hzmem (List.mem_append.mpr (Or.inl hdone)) hpre)
            · have h2 : y = z := List.mem_singleton.mp hz2
              rw [h2] at hne2
              exact hne2 rfl
      · by_cases hpq : r <+: z.1
        · constructor
          · intro _
            refine Or.inr ⟨z, List.mem_append.mpr (Or.inr (List.mem_singleton.mpr rfl)), hpq, hr⟩
          · intro _
            exact I1.2.1 r hpq hr
        · by_cases hqr : z.1 <+: r
          · have hrne : r ≠ [] := by
              intro hcon
              rw [hcon] at hqr
              exact hqne (List.prefix_nil.mp hqr)
            constructor
            · rintro ⟨cs2, hcs2⟩
              rw [I1.2.2.2 r hqr hr] at hcs2
              exact Option.noConfusion hcs2
            · intro h
              exfalso
              rcases h with hnil | ⟨y, hy, hpre, hne2⟩
              · exact hrne hnil
              · rcases List.mem_append.mp hy with hdone | hz2
                · have hzy : z.1 = y.1 := hanti z y hzmem (List.mem_append.mpr (Or.inl hdone))
                    (hqr.trans hpre)
                  rw [← hzy] at hpre
                  exact hr (hqr.eq_of_length
                    (Nat.le_antisymm hqr.length_le hpre.length_le)).symm
                · have h2 : y = z := List.mem_singleton.mp hz2
                  rw [h2] at hpre
                  exact hr (hpre.eq_of_length
                    (Nat.le_antisymm hpre.length_le hqr.length_le))
          · rw [I1.2.2.1 r hpq hqr, hdir r]
            constructor
            · intro h
              rcases h with hnil | ⟨y, hy, hpre, hne2⟩
              · exact Or.inl hnil
              · exact Or.inr ⟨y, List.mem_append.mpr (Or.inl hy), hpre, hne2⟩
            · intro h
              rcases h with hnil | ⟨y, hy, hpre, hne2⟩
              · exact Or.inl hnil
              · rcases List.mem_append.mp hy with hdone | hz2
                · exact Or.inr ⟨y, hdone, hpre, hne2⟩
                · have h2 : y = z := List.mem_singleton.mp hz2
                  rw [h2] at hpre
                  exact absurd hpre hpq
    have hset : ∀ x : List String × String,
        x ∈ (done ++ [z]) ++ rest ↔ x ∈ done ++ z :: rest := by
      intro x
      simp [List.mem_append, or_assoc]
    have IH2 := ih (done ++ [z]) (insertFile t z.1 z.2)
      (fun x hx => hne x ((hset x).mp hx))
      (fun x y hx hy => hanti x y ((hset x).mp hx) ((hset y).mp hy))
      (fun x y hx hy => hcons x y ((hset x).mp hx) ((hset y).mp hy))
      hfile2 hdir2
    simp only [List.foldl_cons]
    constructor
    · intro r c
      rw [IH2.1 r c]
      exact hset (r, c)
    · intro r
      rw [IH2.2 r]
      constructor
      · rintro (hnil | ⟨y, hy, h1, h2⟩)
        · exact Or.inl hnil
        · exact Or.inr ⟨y, (hset y).mp hy, h1, h2⟩
      · rintro (hnil | ⟨y, hy, h1, h2⟩)
        · exact Or.inl hnil
        · exact Or.inr ⟨y, (hset y).mpr hy, h1, h2⟩

theorem nodeAt_extract_zip (es : List (List String × String))
    (hne : ∀ x, x ∈ es → x.1 ≠ [])
    (hanti : ∀ x y, x ∈ es → y ∈ es → x.1 <+: y.1 → x.1 = y.1)
    (hcons : ∀ x y, x ∈ es → y ∈ es → x.1 = y.1 → x.2 = y.2) :
    (∀ r c, nodeAt (extract_zip es) r = some (.file c) ↔ (r, c) ∈ es) ∧
    (∀ r, (∃ cs2, nodeAt (extract_zip es) r = some (.dir cs2)) ↔
      (r = [] ∨ ∃ y, y ∈ es ∧ r <+: y.1 ∧ r ≠ y.1)) := by
  have hbase1 : ∀ r c, nodeAt (Node.dir []) r = some (.file c) ↔
      (r, c) ∈ ([] : List (List String × String)) := by
    intro r c
    simp only [List.not_mem_nil, iff_false]
    cases r with
    | nil =>
      rw [nodeAt_self_nil]
      simp
    | cons d rest =>
      rw [nodeAt_dir_cons_none [] d rest rfl]
      simp
  have hbase2 : ∀ r, (∃ cs2, nodeAt (Node.dir []) r = some (.dir cs2)) ↔
      (r = [] ∨ ∃ y, y ∈ ([] : List (List String × String)) ∧ r <+: y.1 ∧ r ≠ y.1) := by
    intro r
    cases r with
    | nil =>
      rw [nodeAt_self_nil]
      simp
    | cons d rest =>
      rw [nodeAt_dir_cons_none [] d rest rfl]
      simp
  have h := extract_fold_inv es [] (Node.dir [])
    (by intro x hx; rw [List.nil_append] at hx; exact hne x hx)
    (by intro x y hx hy; rw [List.nil_append] at hx hy; exact hanti x y hx hy)
    (by intro x y hx hy; rw [List.nil_append] at hx hy; exact hcons x y hx hy)
    hbase1 hbase2
  simp only [extract_zip]
  constructor
  · intro r c
    rw [h.1 r c]
    simp
  · intro r
    rw [h.2 r]
    simp

theorem nodupKeys_foldl_insertFile (es : List (List String × String)) :
    ∀ (t : Node), t.nodupKeys = true →
      (es.foldl (fun t x => insertFile t x.1 x.2) t).nodupKeys = true := by
  induction es with
  | nil =>
    intro t ht
    exact ht
  | cons z rest ih =>
    intro t ht
    rw [List.foldl_cons]
    exact ih _ (nodupKeys_insertFile t z.1 z.2 ht)

theorem zipList_ne_nil {t : Node} (hnd : t.nodupKeys = true) {x : List String × String}
    (hx : x ∈ zipList t) : x.1 ≠ [] :=
  ((zipList_mem t hnd x.1 x.2).mp (by rw [← Prod.mk.eta (p := x)] at hx; exact hx)).1

theorem zipList_anti {t : Node} (hnd : t.nodupKeys = true) {x y : List String × String}
    (hx : x ∈ zipList t) (hy : y ∈ zipList t) (hpre : x.1 <+: y.1) : x.1 = y.1 := by
  have hx2 := (zipList_mem t hnd x.1 x.2).mp (by rw [← Prod.mk.eta (p := x)] at hx; exact hx)
  have hy2 := (zipList_mem t hnd y.1 y.2).mp (by rw [← Prod.mk.eta (p := y)] at hy; exact hy)
  by_contra hne
  have h0 := nodeAt_file_prefix hx2.2 hpre hne
  rw [h0] at hy2
  exact Option.noConfusion hy2.2

theorem zipList_consistent {t : Node} (hnd : t.nodupKeys = true) {x y : List String × String}
    (hx : x ∈ zipList t) (hy : y ∈ zipList t) (heq : x.1 = y.1) : x.2 = y.2 := by
  have hx2 := (zipList_mem t hnd x.1 x.2).mp (by rw [← Prod.mk.eta (p := x)] at hx; exact hx)
  obtain ⟨-, hy3⟩ := (zipList_mem t hnd y.1 y.2).mp
    (by rw [← Prod.mk.eta (p := y)] at hy; exact hy)
  rw [heq] at hx2
  rw [hx2.2] at hy3
  injection hy3 with h2
  injection h2 with h3

theorem scan_false_mem (hashF : String → String) (t : Node) (hnd : t.nodupKeys = true)
    (p : List String) (m : FMeta) :
    (p, m) ∈ scan_dir_with_hashes hashF t false ↔
      p ≠ [] ∧ ∃ nd, nodeAt t p = some nd ∧ m = metaOfEntry hashF (toW nd) := by
  rw [scan_dir_with_hashes]
  constructor
  · intro hmem
    rcases List.mem_map.mp hmem with ⟨x, hx, hxm⟩
    rcases Prod.mk.injEq _ _ _ _ ▸ hxm with ⟨rfl, rfl⟩
    rcases (scanE_false_mem t hnd [] x.1 x.2).mp
      (by rw [← Prod.mk.eta (p := x)] at hx; exact hx) with ⟨q, nd, hq, hpq, hna, hwn⟩
    rw [List.nil_append] at hpq
    subst hpq
    exact ⟨hq, nd, hna, by rw [hwn]⟩
  · rintro ⟨hp, nd, hna, rfl⟩
    apply List.mem_map.mpr
    refine ⟨(p, toW nd), ?_, rfl⟩
    exact (scanE_false_mem t hnd [] p (toW nd)).mpr
      ⟨p, nd, hp, (List.nil_append p).symm, hna, rfl⟩

/-- C4 counterexample: a tree consisting of one empty directory.  Its
unfiltered scan holds the directory entry, but the zip written by
`create_zip_backup` stores only files, so extracting the backup of this tree
yields an empty tree whose scan is empty: the round trip loses the empty
directory and the two PathMaps differ. -/
theorem c4_counterexample :
    scan_dir_with_hashes (fun c => c) (.dir [("empty", .dir [])]) false
      = [(["empty"], FMeta.mk true "")] ∧
    scan_dir_with_hashes (fun c => c)
      (extract_zip (zipList (.dir [("empty", .dir [])]))) false = [] := by
  constructor
  · simp [scan_dir_with_hashes, metaOfEntry]
  · have hz : zipList (Node.dir [("empty", .dir [])]) = [] := by
      simp [zipList]
    rw [hz]
    show scan_dir_with_hashes (fun c => c) (Node.dir []) false = []
    simp [scan_dir_with_hashes]

/-- C4 (amended): for every well-formed source tree, extracting the backup
zip reproduces exactly the FILE entries of the original unfiltered scan
(same relPaths, same hashes) together with those DIRECTORY entries whose
path lies strictly below some stored file path; a directory entry with no
file anywhere beneath it (an empty directory, or a directory of empty
directories) is absent from the extracted tree's scan, so the round trip is
not the identity on PathMaps. -/
theorem c4_roundtrip_characterization (hashF : String → String) (t : Node)
    (hw : t.wf = true) :
    ∀ p m, ((p, m) ∈ scan_dir_with_hashes hashF (extract_zip (zipList t)) false ↔
      ((p, m) ∈ scan_dir_with_hashes hashF t false ∧
        (m.is_dir = false ∨ ∃ x, x ∈ zipList t ∧ p <+: x.1 ∧ p ≠ x.1))) := by
  have hnd : t.nodupKeys = true := nodupKeys_of_wf t hw
  have hE := nodeAt_extract_zip (zipList t)
    (fun x hx => zipList_ne_nil hnd hx)
    (fun x y hx hy => zipList_anti hnd hx hy)
    (fun x y hx hy => zipList_consistent hnd hx hy)
  have hnodE : (extract_zip (zipList t)).nodupKeys = true := by
    rw [extract_zip]
    exact nodupKeys_foldl_insertFile (zipList t) (.dir []) (by simp)
  intro p m
  rw [scan_false_mem hashF _ hnodE p m, scan_false_mem hashF t hnd p m]
  constructor
  · rintro ⟨hp, nd, hna, rfl⟩
    cases nd with
    | file c =>
      have hmem : (p, c) ∈ zipList t := (hE.1 p c).mp hna
      have hnat := ((zipList_mem t hnd p c).mp hmem).2
      exact ⟨⟨hp, .file c, hnat, rfl⟩, Or.inl rfl⟩
    | dir cs2 =>
      rcases (hE.2 p).mp ⟨cs2, hna⟩ with hnil | ⟨y, hy, hpre, hne2⟩
      · exact absurd hnil hp
      · have hyt := ((zipList_mem t hnd y.1 y.2).mp
          (by rw [← Prod.mk.eta (p := y)] at hy; exact hy)).2
        rcases hpre with ⟨s, hs⟩
        have hsne : s ≠ [] := by
          intro hcon
          rw [hcon, List.append_nil] at hs
          exact hne2 hs
        rw [← hs, nodeAt_append t p s] at hyt
        cases hnp : nodeAt t p with
        | none =>
          rw [hnp] at hyt
          have hyt2 : (none : Option Node) = some (Node.file y.2) := hyt
          exact Option.noConfusion hyt2
        | some nd2 =>
          rw [hnp] at hyt
          have hyt2 : nodeAt nd2 s = some (.file y.2) := hyt
          cases nd2 with
          | file c2 =>
            cases s with
            | nil => exact absurd rfl hsne
            | cons a s2 =>
              have h0 : nodeAt (Node.file c2) (a :: s2) = none := rfl
              rw [h0] at hyt2
              exact Option.noConfusion hyt2
          | dir cs3 =>
            refine ⟨⟨hp, ?_⟩, Or.inr ⟨y, hy, ⟨s, hs⟩, hne2⟩⟩
            exact ⟨.dir cs3, rfl, rfl⟩
  · rintro ⟨⟨hp, nd, hna, rfl⟩, hside⟩
    cases nd with
    | file c =>
      refine ⟨hp, .file c, ?_, rfl⟩
      exact (hE.1 p c).mpr ((zipList_mem t hnd p c).mpr ⟨hp, hna⟩)
    | dir cs2 =>
      rcases hside with hfalse | ⟨x, hx, hpre, hne2⟩
      · exact absurd hfalse (by simp [metaOfEntry, toW])
      · rcases (hE.2 p).mpr (Or.inr ⟨x, hx, hpre, hne2⟩) with ⟨cs3, hcs3⟩
        exact ⟨hp, .dir cs3, hcs3, rfl⟩

/-- Witness for C4 at a tree holding one file `a.txt` and one empty
directory `empty`: after the round trip the file entry is still present and
the empty-directory entry is gone. -/
theorem c4_roundtrip_characterization_witness :
    (Node.dir [("a.txt", .file "A"), ("empty", .dir [])]).wf = true ∧
    ((["a.txt"], FMeta.mk false "A") ∈ scan_dir_with_hashes (fun c => c)
        (extract_zip (zipList (Node.dir [("a.txt", .file "A"), ("empty", .dir [])]))) false ∧
      ¬ ((["empty"], FMeta.mk true "") ∈ scan_dir_with_hashes (fun c => c)
        (extract_zip (zipList (Node.dir [("a.txt", .file "A"), ("empty", .dir [])]))) false)) := by
  have hwf : (Node.dir [("a.txt", .file "A"), ("empty", .dir [])]).wf = true := by
    simp
  have h := c4_roundtrip_characterization (fun c => c)
    (Node.dir [("a.txt", .file "A"), ("empty", .dir [])]) hwf
  have hscan : scan_dir_with_hashes (fun c => c)
      (Node.dir [("a.txt", .file "A"), ("empty", .dir [])]) false
      = [(["empty"], FMeta.mk true ""), (["a.txt"], FMeta.mk false "A")] := by
    simp [scan_dir_with_hashes, metaOfEntry]
  have hzip : zipList (Node.dir [("a.txt", .file "A"), ("empty", .dir [])])
      = [(["a.txt"], "A")] := by
    simp [zipList]
  refine ⟨hwf, ?_, ?_⟩
  · apply (h ["a.txt"] (FMeta.mk false "A")).mpr
    refine ⟨?_, Or.inl rfl⟩
    rw [hscan]
    simp
  · intro hmem
    rcases ((h ["empty"] (FMeta.mk true "")).mp hmem).2 with hfalse | ⟨x, hx, hpre, hne2⟩
    · exact absurd hfalse (by decide)
    · rw [hzip] at hx
      have hx2 : x = (["a.txt"], "A") := List.mem_singleton.mp hx
      rw [hx2] at hpre
      exact absurd hpre (by decide)

end BearMods
